import Mathlib

/-!
Verification of the Project Map core of the `lens` repository
(`src/core/context-builder.js`): import-path resolution, graph queries
(`getAffectedFiles`, `verifyProjectMap`), content hashing
(`calculateMapHash`), the map cache (`loadProjectMap`), and the build
orchestration (`collectSourceFiles` / `buildProjectMap`).

The JavaScript code is embedded shallowly: strings are Lean `String`s,
JS `Map`s keyed by file path are `List String` key lists (a JS `Map`'s
`has` is list membership and `keys()` iterates in first-insertion order,
which for the queries below coincides with the list order), exceptions
are `Option`, and Node's POSIX `path` helpers are modelled from Node's
own algorithms.  All definitions are executable.
-/

namespace Lens

/-! ### String helpers

The JS code operates on UTF-16 strings; all paths of interest are plain
text, modelled as Lean `String`s.  To keep every definition
kernel-reducible we implement the few string operations we need over
`List Char` rather than relying on the partially `@[extern]` core
`String` API.
-/

/-- `s.split('/')` of JavaScript, on the character list. `""` splits to
`[""]`, and adjacent separators produce empty pieces, exactly as in JS. -/
def splitSlashAux : List Char → List Char → List String
  | [], cur => [String.mk cur.reverse]
  | c :: cs, cur =>
    if c = '/' then String.mk cur.reverse :: splitSlashAux cs []
    else splitSlashAux cs (c :: cur)

/-- `s.split('/')` of JavaScript. -/
def splitSlash (s : String) : List String := splitSlashAux s.toList []

/-- `s.replace(/\\/g, '/')`: every backslash becomes a forward slash
(the pattern is a single character, so the global replace is a map). -/
def backslashToSlash (s : String) : String :=
  String.mk (s.toList.map fun c => if c = '\\' then '/' else c)

/-- `pre` is a prefix of `s` (JS `String.prototype.startsWith`). -/
def strStartsWith (s pre : String) : Bool := pre.toList.isPrefixOf s.toList

/-- `suf` is a suffix of `s` (JS `String.prototype.endsWith`). -/
def strEndsWith (s suf : String) : Bool := suf.toList.isSuffixOf s.toList

/-- Drop the first `n` characters (JS `s.slice(n)`). -/
def strDrop (s : String) (n : Nat) : String := String.mk (s.toList.drop n)

/-- Keep the first `n` characters (JS `s.slice(0, n)` / `substring(0, n)`).
JS counts UTF-16 code units; every string in scope is within the BMP, where
code units and scalar values agree. -/
def strTake (s : String) (n : Nat) : String := String.mk (s.toList.take n)

/-- Character membership in a string. -/
def strHasChar (s : String) (c : Char) : Bool := s.toList.contains c

/-- `parts.join('/')` of JavaScript. -/
def joinSlash : List String → String
  | [] => ""
  | [s] => s
  | s :: rest => s ++ "/" ++ joinSlash rest

/-- Lexicographic (code-point) comparison on character lists, `<`. -/
def lexLtChars : List Char → List Char → Bool
  | [], [] => false
  | [], _ :: _ => true
  | _ :: _, [] => false
  | a :: as, b :: bs => if a = b then lexLtChars as bs else decide (a.toNat < b.toNat)

/-- `a < b` on strings by code points.  This models the sign of
`a.localeCompare(b)` in the source's sort comparator: locale collation is
environment-dependent, and we take the code-point order as its model. -/
def lexLt (a b : String) : Bool := lexLtChars a.toList b.toList

/-- `a ≤ b` on strings by code points (comparator result `<= 0`). -/
def lexLe (a b : String) : Bool := !(lexLt b a)

/-! ### Node `path.posix` models

`context-builder.js` runs `path.dirname`, `path.basename`, `path.extname`
and `path.posix.join` over project-root-relative forward-slash paths (the
POSIX platform implementations).  Each model below transcribes the
corresponding algorithm from Node's `lib/path.js`.
-/

/-- Node `path.posix.dirname`.  The backward scan skips the trailing run
of `/`, then looks for the separator ending the parent prefix; the scan
stops before index 0, and an all-slash or separator-free input collapses
to `/` or `.`. -/
def posixDirname (p : String) : String :=
  match p.toList with
  | [] => "."
  | c0 :: _ =>
    let r := p.toList.reverse.dropLast
    let r2 := r.dropWhile (fun c => c = '/')
    let r3 := r2.dropWhile (fun c => c ≠ '/')
    match r3 with
    | [] => if c0 = '/' then "/" else "."
    | _ :: rest =>
      if c0 = '/' ∧ rest = [] then "//"
      else String.mk (c0 :: rest.reverse)

/-- Node `path.posix.basename` (no suffix argument): the last path
segment, ignoring trailing slashes. -/
def posixBasename (p : String) : String :=
  let r := p.toList.reverse
  let r1 := r.dropWhile (fun c => c = '/')
  String.mk ((r1.takeWhile (fun c => c ≠ '/')).reverse)

/-- Node `path.posix.extname`.  Node scans only the last (non-trailing-
slash) segment; the extension starts at the segment's last dot, except
that a dot in first position (dotfiles), a dotless segment, and the
segment `..` yield the empty extension. -/
def posixExtname (p : String) : String :=
  let b := posixBasename p
  let cs := b.toList
  match cs.reverse.findIdx? (fun c => c = '.') with
  | none => ""
  | some k =>
    if k = cs.length - 1 then ""
    else if b = ".." then ""
    else String.mk (cs.reverse.take (k + 1)).reverse

/-- Node `path.basename(filePath, path.extname(filePath))` as used in the
resolver's last-resort step.  When the extension is nonempty it is, by
construction of `posixExtname`, a proper nonempty suffix of the basename,
so Node's suffix-stripping scan reduces to dropping it (the `suffix ===
path` and empty-remainder guards of Node's `basename` cannot fire). -/
def baseNameNoExt (fp : String) : String :=
  let b := posixBasename fp
  let e := posixExtname fp
  if e = "" then b else String.mk (b.toList.take (b.toList.length - e.toList.length))

/-- One step of Node `path.posix.normalize` on a relative path, at the
segment level: `..` pops the last kept segment unless the kept list is
empty or itself ends in `..` (unmatched `..` is kept, `allowAboveRoot`). -/
def posixNormStep (acc : List String) (part : String) : List String :=
  if part = ".." then
    if acc = [] ∨ acc.getLast? = some ".." then acc ++ [part] else acc.dropLast
  else acc ++ [part]

/-- Segment-level Node `path.posix.normalize` of a relative path: empty
and `.` segments dropped, `..` resolved per `posixNormStep`. -/
def posixNormSegs (parts : List String) : List String :=
  parts.foldl posixNormStep []

/-- The segments of `p`: split on `/`, dropping empty and `.` pieces.
This is both the preprocessing of Node's `normalize` and the
`split('/').filter(p => p && p !== '.')` line of `resolveImportPath`. -/
def splitSegs (p : String) : List String :=
  (splitSlash p).filter (fun s => !(s == "" || s == "."))

/-- Node `path.posix.join(a, b)` for the relative paths the resolver
feeds it: concatenate with `/` and normalize.  Node additionally
preserves a leading `/` (absolute input) and a trailing `/`; both are
erased by the `split`/`filter`/pop pass that `resolveImportPath` runs
immediately afterwards, so the model omits them. -/
def posixJoin (a b : String) : String :=
  let joined := if a = "" then b else if b = "" then a else a ++ "/" ++ b
  let segs := posixNormSegs (splitSegs joined)
  if segs.isEmpty then "." else joinSlash segs

/-! ### `resolveImportPath` (context-builder.js:486-546)

The file index is the `Map` built as `new Map(map.files.map(f => [f.path,
f]))`: only `fileMap.has` (list membership) and `fileMap.keys()` (listing
in first-insertion order) are consulted.  Later duplicates of a key
neither change membership nor the first `keys()` hit of any predicate, so
the raw key list models the `Map` exactly for this code.
-/

/-- The `..`-popping loop of `resolveImportPath`: `normalized.pop()` on an
empty array is a no-op, so unmatched `..` segments are silently dropped. -/
def popNorm (parts : List String) : List String :=
  parts.foldl (fun acc part => if part = ".." then acc.dropLast else acc ++ [part]) []

/-- The segment list `normalized` computed inside `resolveImportPath`:
join the importer's directory with the specifier, split on `/`, drop
empty and `.` pieces, and pop on `..`. -/
def resolvedSegs (fromFile importPath : String) : List String :=
  -- path.dirname(fromFile || '.').replace(/\\/g, '/'); dirname('') = dirname('.') = '.'
  let fromDir := backslashToSlash (posixDirname (if fromFile = "" then "." else fromFile))
  let normalizedFromDir := if fromDir = "." then "" else fromDir
  let resolved0 :=
    if normalizedFromDir ≠ "" then
      backslashToSlash (posixJoin normalizedFromDir importPath)
    else
      backslashToSlash (if strStartsWith importPath "./" then strDrop importPath 2 else importPath)
  popNorm (splitSegs resolved0)

/-- The string `resolved` of `resolveImportPath` after normalization:
`normalized.join('/')` (the final `replace(/\\/g, '/')` is the identity
there, every backslash having been replaced before splitting). -/
def resolvedTarget (fromFile importPath : String) : String :=
  joinSlash (resolvedSegs fromFile importPath)

/-- The fixed extension list tried by step 3 of the resolver. -/
def extCandidates : List String := [".js", ".ts", ".jsx", ".tsx", ".mjs", ".cjs"]

/-- The fixed index-file list tried by step 4 of the resolver. -/
def indexCandidates : List String := ["/index.js", "/index.ts", "/index.jsx", "/index.tsx"]

/-- The predicate of the last-resort loop body: the candidate key's
basename without its extension equals the target's basename, and the
key's directory equals the target's directory or ends in `'/' +` it. -/
def lastResortHit (targetBase targetDir filePath : String) : Bool :=
  baseNameNoExt filePath == targetBase &&
    (let fileDir := backslashToSlash (posixDirname filePath)
     fileDir == targetDir || strEndsWith fileDir ("/" ++ targetDir))

/-- `resolveImportPath(fromFile, importPath, fileMap)`
(context-builder.js:486-546). -/
def resolveImportPath (fromFile importPath : String) (fileMap : List String) :
    Option String :=
  -- if (!importPath || !importPath.startsWith('.')) return null
  if ¬ strStartsWith importPath "." then none
  else
    let normalized := resolvedSegs fromFile importPath
    let resolved := joinSlash normalized
    -- Try exact match first
    if fileMap.contains resolved then some resolved
    else
      -- Try with extensions
      match (extCandidates.map (fun ext => resolved ++ ext)).find? fileMap.contains with
      | some candidate => some candidate
      | none =>
        -- Try as directory with index file
        match (indexCandidates.map (fun ext => resolved ++ ext)).find? fileMap.contains with
        | some candidate => some candidate
        | none =>
          -- Try matching by basename (last resort)
          let basename := posixBasename resolved
          let targetDir := joinSlash normalized.dropLast
          (fileMap.find? (lastResortHit basename targetDir)).map backslashToSlash

/-! ### Project Map records and the Graph Query Layer
(context-builder.js:592-712) -/

/-- Named exports plus optional default export of one file. -/
structure ExportsRecord where
  named : List String
  dflt : Option String
  deriving DecidableEq, Repr

/-- One `files` entry of a Project Map: `{ path, signatures, imports,
exports }`. -/
structure FileRecord where
  path : String
  signatures : List String
  imports : List String
  exports : ExportsRecord
  deriving DecidableEq, Repr

/-- The aggregate Project Map, as consumed by the Graph Query Layer
(`tree` and the derived `summary` string play no role in the queries and
are modelled separately where needed). -/
structure ProjectMap where
  files : List FileRecord
  deriving DecidableEq, Repr

/-- `normalizePath` (context-builder.js:581-583): backslashes to forward
slashes, then one leading `./` stripped. -/
def normalizePath (relPath : String) : String :=
  let q := backslashToSlash relPath
  if strStartsWith q "./" then strDrop q 2 else q

/-- `Set.prototype.add`: append unless present (JS sets preserve
insertion order). -/
def setAdd (l : List String) (x : String) : List String :=
  if l.contains x then l else l ++ [x]

/-- Spread of a JS `Set` built by inserting a list's elements in order. -/
def jsSetList (l : List String) : List String := l.foldl setAdd []

/-- Body of the `dependencies` loop of `getAffectedFiles`:
`if (resolved) dependencies.add(resolved)`. -/
def depStep (fileMap : List String) (fromPath : String)
    (acc : List String) (imp : String) : List String :=
  match resolveImportPath fromPath imp fileMap with
  | some r => setAdd acc r
  | none => acc

/-- The `dependencies` set of `getAffectedFiles`: resolved targets of the
focus file's own imports, in insertion order. -/
def dependenciesFold (imports : List String) (fromPath : String)
    (fileMap : List String) : List String :=
  imports.foldl (depStep fileMap fromPath) []

/-- Body of the inner `dependents` loop of `getAffectedFiles`: add the importing
file when one of its imports resolves to the focus path. -/
def depdtStep (fileMap : List String) (focus relativeFilePath fpath : String)
    (acc : List String) (imp : String) : List String :=
  match resolveImportPath fpath imp fileMap with
  | some r =>
    if normalizePath r = focus ∨ r = relativeFilePath then setAdd acc fpath
    else acc
  | none => acc

/-- The `dependents` set of `getAffectedFiles`: every file one of whose imports
resolves to the focus path. -/
def dependentsFold (files : List FileRecord) (fileMap : List String)
    (focus relativeFilePath : String) : List String :=
  files.foldl (fun acc f =>
    f.imports.foldl (depdtStep fileMap focus relativeFilePath f.path) acc) []

/-- Result record of `getAffectedFiles`. -/
structure Affected where
  dependencies : List String
  dependents : List String
  all : List String
  deriving DecidableEq, Repr

/-- `getAffectedFiles(map, relativeFilePath)` (context-builder.js:592-621). -/
def getAffectedFiles (map : ProjectMap) (relativeFilePath : String) : Affected :=
  let fileMap := map.files.map (·.path)
  let focus := normalizePath relativeFilePath
  match map.files.find? (fun f => normalizePath f.path == focus || f.path == relativeFilePath) with
  | none => ⟨[], [], [focus]⟩
  | some focusEntry =>
    let dependencies := dependenciesFold focusEntry.imports focusEntry.path fileMap
    let dependents := dependentsFold map.files fileMap focus relativeFilePath
    let all := jsSetList (focusEntry.path :: (dependencies ++ dependents))
    ⟨dependencies, dependents, all⟩

/-- One `brokenImports` entry `{ from, import, reason }` of
`verifyProjectMap` (`from` and `import` are reserved words in Lean). -/
structure BrokenImport where
  fromPath : String
  importSpec : String
  reason : String
  deriving DecidableEq, Repr

/-- Result record of `verifyProjectMap`. -/
structure VerifyResult where
  ok : Bool
  brokenImports : List BrokenImport
  totalChecked : Nat
  deriving DecidableEq, Repr

/-- Reason recorded when resolution returns `null`. -/
def reasonNotFound : String := "Target not found or not in project map"

/-- Body of the per-import loop of `verifyProjectMap`: skip non-relative
specifiers (`!imp || !imp.startsWith('.')`; the empty specifier does not
start with `.`), count the import, and record a broken entry when it
does not resolve or resolves outside the map. -/
def verifyStep (fileMap : List String) (fpath : String)
    (acc : List BrokenImport × Nat) (imp : String) : List BrokenImport × Nat :=
  if ¬ strStartsWith imp "." then acc
  else
    match resolveImportPath fpath imp fileMap with
    | none => (acc.1 ++ [⟨fpath, imp, reasonNotFound⟩], acc.2 + 1)
    | some r =>
      if ¬ fileMap.contains r then
        (acc.1 ++ [⟨fpath, imp, "Resolved to " ++ r ++ " but file not in map"⟩], acc.2 + 1)
      else (acc.1, acc.2 + 1)

/-- The verification core of `verifyProjectMap`
(context-builder.js:686-712): everything after the map has been built. -/
def verifyCore (map : ProjectMap) : VerifyResult :=
  let fileMap := map.files.map (·.path)
  let res := map.files.foldl (fun acc f =>
    f.imports.foldl (verifyStep fileMap f.path) acc) (([], 0) : List BrokenImport × Nat)
  ⟨res.1.isEmpty, res.1, res.2⟩

/-! ### Byte-level hashing primitives

`calculateMapHash` feeds UTF-8 text through Node's `crypto` MD5 and
SHA-256.  Both digests are implemented here over `Nat` (32-bit words are
naturals reduced mod `2^32`), so that concrete hash values compute inside
the kernel.
-/

/-- UTF-8 encoding of one scalar value. -/
def charUtf8 (c : Char) : List Nat :=
  let n := c.toNat
  if n < 128 then [n]
  else if n < 2048 then [192 + n / 64, 128 + n % 64]
  else if n < 65536 then [224 + n / 4096, 128 + n / 64 % 64, 128 + n % 64]
  else [240 + n / 262144, 128 + n / 4096 % 64, 128 + n / 64 % 64, 128 + n % 64]

/-- UTF-8 bytes of a string (what `hash.update(str)` consumes). -/
def utf8Bytes (s : String) : List Nat := s.toList.flatMap charUtf8

/-- Lowercase hex digit. -/
def hexDigit (n : Nat) : Char :=
  "0123456789abcdef".toList.getD n '0'

/-- Two lowercase hex digits of a byte. -/
def byteHex (b : Nat) : List Char := [hexDigit (b / 16 % 16), hexDigit (b % 16)]

/-- Lowercase hex string of a byte list (`digest('hex')`). -/
def bytesHex (bs : List Nat) : String := String.mk (bs.flatMap byteHex)

/-- 2^32. -/
def M32 : Nat := 4294967296

/-- Addition mod 2^32. -/
def add32 (a b : Nat) : Nat := (a + b) % M32

/-- Rotate a 32-bit word left by `n`. -/
def rotl32 (x n : Nat) : Nat := ((x <<< n) % M32) ||| (x >>> (32 - n))

/-- Rotate a 32-bit word right by `n`. -/
def rotr32 (x n : Nat) : Nat := (x >>> n) ||| ((x <<< (32 - n)) % M32)

/-- Bitwise complement within 32 bits (inputs are kept reduced). -/
def not32 (x : Nat) : Nat := 4294967295 - x

/-- Split a byte list into blocks of `64` (fuel-driven structural
recursion — the fuel `l.length` always suffices, since every step
consumes at least one byte; structural recursion keeps the definition
kernel-reducible). -/
def chunk64Fuel : Nat → List Nat → List (List Nat)
  | 0, _ => []
  | _, [] => []
  | fuel + 1, l => l.take 64 :: chunk64Fuel fuel (l.drop 64)

/-- Split a byte list into blocks of `64`. -/
def chunk64 (l : List Nat) : List (List Nat) := chunk64Fuel l.length l

/-- Little-endian 32-bit words of a byte list (4 bytes each). -/
def leWords : List Nat → List Nat
  | b0 :: b1 :: b2 :: b3 :: rest =>
    (b0 + 256 * b1 + 65536 * b2 + 16777216 * b3) :: leWords rest
  | _ => []

/-- Big-endian 32-bit words of a byte list (4 bytes each). -/
def beWords : List Nat → List Nat
  | b0 :: b1 :: b2 :: b3 :: rest =>
    (b3 + 256 * b2 + 65536 * b1 + 16777216 * b0) :: beWords rest
  | _ => []

/-- Little-endian 4-byte rendering of a 32-bit word. -/
def wordLeBytes (w : Nat) : List Nat := [w % 256, w / 256 % 256, w / 65536 % 256, w / 16777216 % 256]

/-- Big-endian 4-byte rendering of a 32-bit word. -/
def wordBeBytes (w : Nat) : List Nat := [w / 16777216 % 256, w / 65536 % 256, w / 256 % 256, w % 256]

/-- Merkle–Damgård padding: `0x80`, zeros to 56 mod 64, then the 8-byte
bit length (little-endian for MD5, big-endian for SHA-256). -/
def mdPad (littleEndian : Bool) (msg : List Nat) : List Nat :=
  let len := msg.length
  let k := (119 - len % 64) % 64
  let lenBits := len * 8
  let lenBytes := (List.range 8).map (fun i => lenBits / 256 ^ i % 256)
  msg ++ [128] ++ List.replicate k 0 ++ (if littleEndian then lenBytes else lenBytes.reverse)

/-- MD5 sine-derived constant table. -/
def md5K : List Nat :=
  [3614090360, 3905402710, 606105819, 3250441966, 4118548399,
   1200080426, 2821735955, 4249261313, 1770035416, 2336552879,
   4294925233, 2304563134, 1804603682, 4254626195, 2792965006,
   1236535329, 4129170786, 3225465664, 643717713, 3921069994,
   3593408605, 38016083, 3634488961, 3889429448, 568446438,
   3275163606, 4107603335, 1163531501, 2850285829, 4243563512,
   1735328473, 2368359562, 4294588738, 2272392833, 1839030562,
   4259657740, 2763975236, 1272893353, 4139469664, 3200236656,
   681279174, 3936430074, 3572445317, 76029189, 3654602809,
   3873151461, 530742520, 3299628645, 4096336452, 1126891415,
   2878612391, 4237533241, 1700485571, 2399980690, 4293915773,
   2240044497, 1873313359, 4264355552, 2734768916, 1309151649,
   4149444226, 3174756917, 718787259, 3951481745]

/-- MD5 per-round left-rotation amounts. -/
def md5S : List Nat :=
  [7, 12, 17, 22, 7, 12, 17, 22, 7, 12, 17, 22, 7, 12, 17, 22,
   5, 9, 14, 20, 5, 9, 14, 20, 5, 9, 14, 20, 5, 9, 14, 20,
   4, 11, 16, 23, 4, 11, 16, 23, 4, 11, 16, 23, 4, 11, 16, 23,
   6, 10, 15, 21, 6, 10, 15, 21, 6, 10, 15, 21, 6, 10, 15, 21]

/-- One MD5 round step on state `(a, b, c, d)`. -/
def md5Step (M : List Nat) (st : Nat × Nat × Nat × Nat) (i : Nat) :
    Nat × Nat × Nat × Nat :=
  let (a, b, c, d) := st
  let fg : Nat × Nat :=
    if i < 16 then ((b &&& c) ||| (not32 b &&& d), i)
    else if i < 32 then ((d &&& b) ||| (not32 d &&& c), (5 * i + 1) % 16)
    else if i < 48 then (b ^^^ c ^^^ d, (3 * i + 5) % 16)
    else (c ^^^ (b ||| not32 d), 7 * i % 16)
  let tmp := add32 (add32 (add32 a fg.1) (md5K.getD i 0)) (M.getD fg.2 0)
  (d, add32 b (rotl32 tmp (md5S.getD i 0)), b, c)

/-- MD5 compression of one 64-byte block. -/
def md5Block (st : Nat × Nat × Nat × Nat) (block : List Nat) :
    Nat × Nat × Nat × Nat :=
  let M := leWords block
  let r := (List.range 64).foldl (md5Step M) st
  (add32 st.1 r.1, add32 st.2.1 r.2.1, add32 st.2.2.1 r.2.2.1, add32 st.2.2.2 r.2.2.2)

/-- MD5 of a byte list, as a lowercase hex string. -/
def md5Hex (msg : List Nat) : String :=
  let st := (mdPad true msg |> chunk64).foldl md5Block
    (1732584193, 4023233417, 2562383102, 271733878)
  bytesHex (wordLeBytes st.1 ++ wordLeBytes st.2.1 ++ wordLeBytes st.2.2.1 ++ wordLeBytes st.2.2.2)

/-- SHA-256 round constant table. -/
def sha256K : List Nat :=
  [1116352408, 1899447441, 3049323471, 3921009573, 961987163,
   1508970993, 2453635748, 2870763221, 3624381080, 310598401,
   607225278, 1426881987, 1925078388, 2162078206, 2614888103,
   3248222580, 3835390401, 4022224774, 264347078, 604807628,
   770255983, 1249150122, 1555081692, 1996064986, 2554220882,
   2821834349, 2952996808, 3210313671, 3336571891, 3584528711,
   113926993, 338241895, 666307205, 773529912, 1294757372,
   1396182291, 1695183700, 1986661051, 2177026350, 2456956037,
   2730485921, 2820302411, 3259730800, 3345764771, 3516065817,
   3600352804, 4094571909, 275423344, 430227734, 506948616,
   659060556, 883997877, 958139571, 1322822218, 1537002063,
   1747873779, 1955562222, 2024104815, 2227730452, 2361852424,
   2428436474, 2756734187, 3204031479, 3329325298]

/-- SHA-256 message schedule: extend 16 big-endian words to 64. -/
def sha256Schedule (ws : List Nat) : List Nat :=
  (List.range 48).foldl (fun w _ =>
    let t := w.length
    let s0 := let x := w.getD (t - 15) 0
      rotr32 x 7 ^^^ rotr32 x 18 ^^^ (x >>> 3)
    let s1 := let x := w.getD (t - 2) 0
      rotr32 x 17 ^^^ rotr32 x 19 ^^^ (x >>> 10)
    w ++ [(w.getD (t - 16) 0 + s0 + w.getD (t - 7) 0 + s1) % M32]) ws

/-- 8-word SHA-256 state. -/
structure SHAState where
  a : Nat
  b : Nat
  c : Nat
  d : Nat
  e : Nat
  f : Nat
  g : Nat
  h : Nat
  deriving Repr

/-- One SHA-256 round. -/
def sha256Step (W : List Nat) (st : SHAState) (t : Nat) : SHAState :=
  let S1 := rotr32 st.e 6 ^^^ rotr32 st.e 11 ^^^ rotr32 st.e 25
  let ch := (st.e &&& st.f) ^^^ (not32 st.e &&& st.g)
  let T1 := (st.h + S1 + ch + sha256K.getD t 0 + W.getD t 0) % M32
  let S0 := rotr32 st.a 2 ^^^ rotr32 st.a 13 ^^^ rotr32 st.a 22
  let maj := (st.a &&& st.b) ^^^ (st.a &&& st.c) ^^^ (st.b &&& st.c)
  let T2 := (S0 + maj) % M32
  ⟨(T1 + T2) % M32, st.a, st.b, st.c, (st.d + T1) % M32, st.e, st.f, st.g⟩

/-- SHA-256 compression of one 64-byte block. -/
def sha256Block (st : SHAState) (block : List Nat) : SHAState :=
  let W := sha256Schedule (beWords block)
  let r := (List.range 64).foldl (sha256Step W) st
  ⟨add32 st.a r.a, add32 st.b r.b, add32 st.c r.c, add32 st.d r.d,
   add32 st.e r.e, add32 st.f r.f, add32 st.g r.g, add32 st.h r.h⟩

/-- SHA-256 of a byte list, as a lowercase hex string. -/
def sha256Hex (msg : List Nat) : String :=
  let st := (mdPad false msg |> chunk64).foldl sha256Block
    ⟨1779033703, 3144134277, 1013904242, 2773480762,
     1359893119, 2600822924, 528734635, 1541459225⟩
  bytesHex (wordBeBytes st.a ++ wordBeBytes st.b ++ wordBeBytes st.c ++ wordBeBytes st.d ++
    wordBeBytes st.e ++ wordBeBytes st.f ++ wordBeBytes st.g ++ wordBeBytes st.h)

/-! ### `calculateMapHash` (context-builder.js:192-207) -/

/-- One entry of the collected file list, together with the outcome of
the `fs.statSync`/`fs.readFileSync` pair performed on it while hashing:
`some (size, content)` on success (`stat.size` in bytes and the file's
UTF-8 text), `none` when either call throws. -/
structure HashedFile where
  rel : String
  readResult : Option (Nat × String)
  deriving DecidableEq, Repr

/-- Stable insertion by relative path, modelling one step of
`[...fileList].sort((a, b) => a.rel.localeCompare(b.rel))` — JS `sort` is
stable, and `localeCompare`'s sign is modelled by code-point order. -/
def sortInsert (x : HashedFile) : List HashedFile → List HashedFile
  | [] => [x]
  | y :: ys => if lexLe x.rel y.rel then x :: y :: ys else y :: sortInsert x ys

/-- The sorted copy of the file list (stable, keyed by `rel`; extensional
behaviour of the stable comparator sort in the source). -/
def sortByRel (l : List HashedFile) : List HashedFile := l.foldr sortInsert []

/-- The per-file text folded into the map hash:
`` `${f.rel}:${stat.size}:${contentHash}` `` where `contentHash` is the
first 8 hex digits of the MD5 of the first 1024 characters of the
content, or `` `${f.rel}:missing` `` when the filesystem calls throw. -/
def fileFold (f : HashedFile) : String :=
  match f.readResult with
  | some (size, content) =>
    f.rel ++ ":" ++ Nat.repr size ++ ":" ++ strTake (md5Hex (utf8Bytes (strTake content 1024))) 8
  | none => f.rel ++ ":missing"

/-- `calculateMapHash(fileList)`: SHA-256 over the concatenated per-file
texts of the sorted list (incremental `hash.update` calls concatenate). -/
def calculateMapHash (fileList : List HashedFile) : String :=
  sha256Hex (utf8Bytes (String.join ((sortByRel fileList).map fileFold)))

/-! ### `loadProjectMap` (context-builder.js:233-255) -/

/-- The observable state of the persisted cache file
`.legacylens-map.json`: absent (`fs.existsSync` false), unreadable
(`readFileSync` or `JSON.parse` throws), or parsed JSON whose `version`,
`hash` and `map` fields are each possibly missing. -/
inductive CacheFileState where
  | absent : CacheFileState
  | unreadable : CacheFileState
  | parsed (version : Option String) (hash : Option String) (map : Option ProjectMap) :
      CacheFileState
  deriving DecidableEq

/-- `loadProjectMap(projectPath, expectedHash)` as a function of the
persisted state and the current tool `VERSION`; `null`/`undefined`
results are `none`. -/
def loadProjectMap (state : CacheFileState) (toolVersion expectedHash : String) :
    Option ProjectMap :=
  match state with
  | .absent => none
  | .unreadable => none
  | .parsed v h m =>
    if v ≠ some toolVersion then none
    else if h ≠ some expectedHash then none
    else m

/-! ### `collectSourceFiles` and `buildProjectMap`
(context-builder.js:167-186, 265-325)

The filesystem is modelled as a tree of named entries; a directory whose
`readdirSync` throws is `readable := false`, and the whole scanned root
may itself be unreadable/nonexistent (`rootEntries = none`).  The ignore
decision (`shouldIgnore` + the injected ignore instance) and the lexical
extractor enter as function parameters: the claims settled against this
model concern the orchestration's control flow, which is independent of
both.
-/

/-- A filesystem entry as seen by `readdirSync(..., { withFileTypes :
true })`. -/
inductive FSEntry where
  | file (name : String) (content : Option String) : FSEntry
  | dir (name : String) (readable : Bool) (entries : List FSEntry) : FSEntry
  deriving Repr

/-- Join a relative prefix with an entry name (`path.relative(root,
full)` along the walk, with forward slashes). -/
def joinRel (pre name : String) : String := if pre = "" then name else pre ++ "/" ++ name

mutual
/-- `collectSourceFiles`' handling of one directory entry. -/
def collectEntry (ign : String → Bool) (exts : List String) (pre : String) :
    FSEntry → List (String × Option String)
  | .file name content =>
    let rel := joinRel pre name
    if ign rel then []
    else if exts.any (fun ext => strEndsWith name ext) then [(rel, content)]
    else []
  | .dir name readable entries =>
    let rel := joinRel pre name
    if ign rel then []
    else if readable then collectEntries ign exts rel entries
    else []

/-- `collectSourceFiles`' loop over a directory's entries. -/
def collectEntries (ign : String → Bool) (exts : List String) (pre : String) :
    List FSEntry → List (String × Option String)
  | [] => []
  | e :: es => collectEntry ign exts pre e ++ collectEntries ign exts pre es
end

/-- `collectSourceFiles(rootDir, rootDir, ...)`: when the root cannot be
read (nonexistent or unreadable), `readdirSync` throws, the `catch`
returns the accumulator, and the collected list is empty. -/
def collectSourceFiles (ign : String → Bool) (exts : List String)
    (rootEntries : Option (List FSEntry)) : List (String × Option String) :=
  match rootEntries with
  | none => []
  | some entries => collectEntries ign exts "" entries

/-- A node of the compact directory tree built by `buildTree`. -/
structure TreeNode where
  name : String
  children : List TreeNode
  deriving Repr

/-- What one collected file contributes to the hashing input: the
`statSync`/`readFileSync` calls succeed exactly when the walk saw a
readable file, sizes being UTF-8 byte counts. -/
def toHashedFile (e : String × Option String) : HashedFile :=
  ⟨e.1, e.2.map (fun c => ((utf8Bytes c).length, c))⟩

/-- The result of the modelled build: the map (tree elided to its root
node name; `summary` elided) — see `buildProjectMap` steps 1-3. -/
structure BuildOutcome where
  fromCache : Bool
  files : List FileRecord
  deriving Repr

/-- `buildProjectMap(projectPath, options)` (context-builder.js:265-325),
with the lexical extractor a parameter (`extract content` stands for the
`extractSignatures`/`extractImports`/`extractExports` triple on the
truncated content) and the persisted cache state passed explicitly.  A
file whose read throws is skipped (`continue`); the function always
completes and returns a map — there is no failure path. -/
def buildProjectMap (ign : String → Bool) (exts : List String)
    (extract : String → String → FileRecord) (maxFileSize : Nat)
    (cache : CacheFileState) (toolVersion : String) (forceRebuild : Bool)
    (rootEntries : Option (List FSEntry)) : BuildOutcome :=
  let fileList := collectSourceFiles ign exts rootEntries
  let fileHash := calculateMapHash (fileList.map toHashedFile)
  match if forceRebuild then none else loadProjectMap cache toolVersion fileHash with
  | some cached => ⟨true, cached.files⟩
  | none =>
    let files := fileList.filterMap (fun e =>
      match e.2 with
      | none => none  -- read failed: skip
      | some content => some (extract e.1 (if content.length > maxFileSize then strTake content maxFileSize else content)))
    ⟨false, files⟩

/-- The root-existence gate of the CLI (src/cli.js:55-58): a missing root
directory is reported and the process exits with code 1 before any core
operation runs. -/
def runCliRootCheck (rootExists : Bool) (absolutePath : String) : Except String Unit :=
  if !rootExists then Except.error ("Error: Directory does not exist: " ++ absolutePath)
  else Except.ok ()

/-! ## Supporting lemmas -/

/-- Elements surviving the `..`-popping loop never include `..`. -/
lemma popNorm_no_dotdot_aux (parts : List String) :
    ∀ acc : List String, ".." ∉ acc →
      ".." ∉ parts.foldl (fun a p => if p = ".." then a.dropLast else a ++ [p]) acc := by
  induction parts with
  | nil => intro acc h; simpa using h
  | cons p ps ih =>
    intro acc h
    simp only [List.foldl_cons]
    by_cases hp : p = ".."
    · simp only [hp, if_pos rfl]
      exact ih _ (fun hmem => h (List.Sublist.mem hmem (List.dropLast_sublist acc)))
    · simp only [if_neg hp]
      refine ih _ (fun hmem => ?_)
      rcases List.mem_append.mp hmem with h1 | h1
      · exact h h1
      · exact hp (List.mem_singleton.mp h1).symm

/-- `..` never survives `popNorm`. -/
lemma popNorm_no_dotdot (parts : List String) : ".." ∉ popNorm parts :=
  popNorm_no_dotdot_aux parts [] (by simp)

/-- Every element of the popping loop's output is an input segment. -/
lemma popNorm_mem_aux (parts : List String) :
    ∀ acc x, x ∈ parts.foldl (fun a p => if p = ".." then a.dropLast else a ++ [p]) acc →
      x ∈ acc ∨ x ∈ parts := by
  induction parts with
  | nil => intro acc x h; exact Or.inl (by simpa using h)
  | cons p ps ih =>
    intro acc x h
    simp only [List.foldl_cons] at h
    rcases ih _ x h with h1 | h1
    · by_cases hp : p = ".."
      · simp only [hp, if_pos rfl] at h1
        exact Or.inl (List.Sublist.mem h1 (List.dropLast_sublist acc))
      · simp only [if_neg hp] at h1
        rcases List.mem_append.mp h1 with h2 | h2
        · exact Or.inl h2
        · exact Or.inr (by simp [List.mem_singleton.mp h2])
    · exact Or.inr (List.mem_cons_of_mem _ h1)

lemma mem_popNorm (parts : List String) {x : String} (h : x ∈ popNorm parts) : x ∈ parts := by
  rcases popNorm_mem_aux parts [] x h with h1 | h1
  · simp at h1
  · exact h1

/-- Pieces produced by the `/`-splitter contain no `/`. -/
lemma splitSlashAux_no_slash (cs : List Char) :
    ∀ cur, (∀ c ∈ cur, c ≠ '/') →
      ∀ s ∈ splitSlashAux cs cur, ∀ c ∈ s.toList, c ≠ '/' := by
  induction cs with
  | nil =>
    intro cur hcur s hs c hc
    unfold splitSlashAux at hs
    rw [List.mem_singleton] at hs
    subst hs
    exact hcur c (by simpa using hc)
  | cons a as ih =>
    intro cur hcur s hs c hc
    unfold splitSlashAux at hs
    by_cases ha : a = '/'
    · rw [if_pos ha] at hs
      rcases List.mem_cons.mp hs with hs | hs
      · subst hs; exact hcur c (by simpa using hc)
      · exact ih [] (by simp) s hs c hc
    · rw [if_neg ha] at hs
      refine ih (a :: cur) ?_ s hs c hc
      intro c' hc'
      rcases List.mem_cons.mp hc' with h | h
      · subst h; exact ha
      · exact hcur c' h

/-- Every segment kept by `splitSegs` is nonempty, is not `.`, and
contains no slash. -/
lemma splitSegs_props (p : String) {s : String} (h : s ∈ splitSegs p) :
    s ≠ "" ∧ s ≠ "." ∧ ∀ c ∈ s.toList, c ≠ '/' := by
  rcases List.mem_filter.mp h with ⟨hmem, hkeep⟩
  have hs : ∀ c ∈ s.toList, c ≠ '/' :=
    splitSlashAux_no_slash p.toList [] (by simp) s hmem
  refine ⟨?_, ?_, hs⟩ <;> intro he <;> subst he <;> simp at hkeep

/-- Every element of `resolvedSegs` is a nonempty, slash-free segment
other than `..`. -/
lemma resolvedSegs_props (fromFile importPath : String) {s : String}
    (h : s ∈ resolvedSegs fromFile importPath) :
    s ≠ "" ∧ s ≠ ".." ∧ ∀ c ∈ s.toList, c ≠ '/' := by
  have hne : s ≠ ".." := by
    intro he; subst he
    exact popNorm_no_dotdot _ h
  have h2 := mem_popNorm _ h
  obtain ⟨h3, _, h5⟩ := splitSegs_props _ h2
  exact ⟨h3, hne, h5⟩

/-- A string whose character list is nonempty and starts with a
non-slash character does not start with `/`. -/
lemma joinSlash_cons_toList (s : String) (rest : List String) :
    ∃ t, (joinSlash (s :: rest)).toList = s.toList ++ t := by
  cases rest with
  | nil => exact ⟨[], by simp [joinSlash]⟩
  | cons r rs =>
    refine ⟨("/" ++ joinSlash (r :: rs)).toList, ?_⟩
    show (s ++ "/" ++ joinSlash (r :: rs)).toList = _
    simp [String.toList]

/-- A nonempty string is one with a nonempty character list. -/
lemma toList_ne_nil {s : String} (h : s ≠ "") : s.toList ≠ [] := by
  intro he
  exact h (by cases s with | _ d => cases d with
    | nil => rfl
    | cons a as => simp [String.toList] at he)

/-! ## C10 — root clamping during normalization -/

/-- **C10.** When `resolveImportPath` normalizes the joined path, excess
`..` segments are silently discarded (popping an empty list is a no-op):
for every importer path and specifier the computed target is
root-relative — it has no `..` segment and no leading `/` — and an import
that climbs above the project root can still resolve to a file
inside the root, as `../../x` from root-level `a.js` resolving to `x.js`
shows. -/
theorem resolver_clamps_traversal_to_root (fromFile importPath : String) :
    ".." ∉ resolvedSegs fromFile importPath
    ∧ strStartsWith (resolvedTarget fromFile importPath) "/" = false
    ∧ resolveImportPath "a.js" "../../x" ["x.js"] = some "x.js" := by
  refine ⟨popNorm_no_dotdot _, ?_, by decide⟩
  unfold resolvedTarget
  cases hsegs : resolvedSegs fromFile importPath with
  | nil => decide
  | cons s rest =>
    have hs : s ∈ resolvedSegs fromFile importPath := by simp [hsegs]
    obtain ⟨hne, _, hnoslash⟩ := resolvedSegs_props _ _ hs
    obtain ⟨t, ht⟩ := joinSlash_cons_toList s rest
    simp only [strStartsWith, ht]
    cases hsl : s.toList with
    | nil => exact absurd hsl (toList_ne_nil hne)
    | cons c cs =>
      have hc : c ≠ '/' := hnoslash c (by rw [hsl]; exact List.mem_cons_self _ _)
      have hbeq : ('/' == c) = false := by
        simp only [beq_eq_false_iff_ne, ne_eq]
        exact fun h => hc h.symm
      show List.isPrefixOf ['/'] (c :: cs ++ t) = false
      simp [List.isPrefixOf, hbeq]

/-! ## C1 — deterministic resolution order of steps 1-4 -/

/-- The ordered candidate list tried by steps 2-4 of the resolver: the
normalized joined path, then that path with each source extension, then
with each `/index.<ext>` suffix. -/
def stepCandidates (fromFile importPath : String) : List String :=
  resolvedTarget fromFile importPath
    :: (extCandidates.map (fun ext => resolvedTarget fromFile importPath ++ ext)
        ++ indexCandidates.map (fun ext => resolvedTarget fromFile importPath ++ ext))

/-- For a relative specifier, `resolveImportPath` is: the first of
`stepCandidates` present in the index, else the last-resort basename
search. -/
lemma resolveImportPath_eq_of_rel (ff ip : String) (idx : List String)
    (h : strStartsWith ip "." = true) :
    resolveImportPath ff ip idx =
      match (stepCandidates ff ip).find? idx.contains with
      | some c => some c
      | none =>
        (idx.find? (lastResortHit (posixBasename (resolvedTarget ff ip))
          (joinSlash (resolvedSegs ff ip).dropLast))).map backslashToSlash := by
  simp only [resolveImportPath, h]
  rw [if_neg (by simp)]
  rw [show joinSlash (resolvedSegs ff ip) = resolvedTarget ff ip from rfl]
  by_cases h1 : idx.contains (resolvedTarget ff ip)
  · rw [if_pos h1, stepCandidates, List.find?_cons_of_pos _ h1]
  · rw [if_neg h1, stepCandidates, List.find?_cons_of_neg _ h1, List.find?_append]
    cases hfe : (extCandidates.map fun ext => resolvedTarget ff ip ++ ext).find? idx.contains with
    | some c => rfl
    | none =>
      cases hfi : (indexCandidates.map fun ext => resolvedTarget ff ip ++ ext).find? idx.contains with
      | some c => rfl
      | none => rfl

/-- **C1.** For every importer path, import specifier and file index:
`resolveImportPath` returns `null` immediately when the specifier does
not start with `.`; otherwise it tries, first match winning, (1) the
`.`/`..`-normalized join of the importer's directory and the specifier as
an exact index key, (2) that path with each of `.js .ts .jsx .tsx .mjs
.cjs` appended, (3) that path with `/index.js /index.ts /index.jsx
/index.tsx` appended; in particular `./util` resolves to `util/index.js`
when the index has `util/index.js` but no `util.js`. -/
theorem resolve_order_exact_then_ext_then_index
    (fromFile importPath : String) (fileIndex : List String) :
    (strStartsWith importPath "." = false →
      resolveImportPath fromFile importPath fileIndex = none)
    ∧ (∀ c, strStartsWith importPath "." = true →
        (stepCandidates fromFile importPath).find? fileIndex.contains = some c →
        resolveImportPath fromFile importPath fileIndex = some c)
    ∧ resolveImportPath "main.js" "./util" ["main.js", "util/index.js"]
        = some "util/index.js" := by
  refine ⟨?_, ?_, by decide⟩
  · intro h
    simp [resolveImportPath, h]
  · intro c h hfind
    rw [resolveImportPath_eq_of_rel _ _ _ h, hfind]

/-- Witness for C1: the general clauses applied at concrete inputs.
`./b` from `src/a.js` hits the `.ts` extension candidate, and `x` is
rejected outright. -/
theorem resolve_order_exact_then_ext_then_index_witness :
    resolveImportPath "src/a.js" "./b" ["src/b.ts"] = some "src/b.ts"
    ∧ resolveImportPath "src/a.js" "lodash" ["src/b.ts"] = none :=
  ⟨(resolve_order_exact_then_ext_then_index "src/a.js" "./b" ["src/b.ts"]).2.1
      "src/b.ts" (by decide) (by decide),
   (resolve_order_exact_then_ext_then_index "src/a.js" "lodash" ["src/b.ts"]).1 (by decide)⟩

/-! ## C6 — the last-resort basename search -/

/-- **C6, counterexample.**  The claim says the last-resort step prefers
a file located in the same directory as `fromFilePath` over a mere
suffix-match.  In the index `["b/a/x.py", "a/x.py"]`, resolving `./x`
from `a/f.js` finds `a/x.py` — a basename match in the importer's own
directory — yet returns `b/a/x.py`, the earlier index entry, whose
directory `b/a` is not the importer's: the search is a single pass in
index order with no same-directory preference. -/
theorem lastresort_no_same_dir_preference_counterexample :
    resolveImportPath "a/f.js" "./x" ["b/a/x.py", "a/x.py"] = some "b/a/x.py"
    ∧ posixDirname "a/x.py" = posixDirname "a/f.js"
    ∧ baseNameNoExt "a/x.py" = posixBasename (resolvedTarget "a/f.js" "./x")
    ∧ posixDirname "b/a/x.py" ≠ posixDirname "a/f.js" := by
  refine ⟨by decide, by decide, by decide, by decide⟩

/-- **C6, amended.**  When the specifier is relative and steps 2-4 all
miss, `resolveImportPath` scans the file index once, in insertion order,
and returns the first file whose basename without extension equals the
final segment of the joined path and whose directory either equals the
joined path's directory (not necessarily the importer's) or ends in
`'/' +` that directory; if no entry qualifies it returns `null`.  There
is no two-phase preference between the two directory conditions. -/
theorem lastresort_single_pass_in_index_order
    (fromFile importPath : String) (fileIndex : List String)
    (hrel : strStartsWith importPath "." = true)
    (hmiss : (stepCandidates fromFile importPath).find? fileIndex.contains = none) :
    resolveImportPath fromFile importPath fileIndex =
      (fileIndex.find? (lastResortHit (posixBasename (resolvedTarget fromFile importPath))
        (joinSlash (resolvedSegs fromFile importPath).dropLast))).map backslashToSlash := by
  rw [resolveImportPath_eq_of_rel _ _ _ hrel, hmiss]

/-- Witness for the amended C6 at the counterexample input. -/
theorem lastresort_single_pass_in_index_order_witness :
    resolveImportPath "a/f.js" "./x" ["b/a/x.py", "a/x.py"]
      = ((["b/a/x.py", "a/x.py"] : List String).find?
          (lastResortHit (posixBasename (resolvedTarget "a/f.js" "./x"))
            (joinSlash (resolvedSegs "a/f.js" "./x").dropLast))).map backslashToSlash :=
  lastresort_single_pass_in_index_order "a/f.js" "./x" ["b/a/x.py", "a/x.py"]
    (by decide) (by decide)

/-! ## C9 — resolver soundness and the second `verify` failure branch -/

lemma contains_iff_mem {α : Type} [BEq α] [LawfulBEq α] {l : List α} {a : α} :
    l.contains a = true ↔ a ∈ l := by
  simp [List.contains, List.elem_iff]

/-- Replacing backslashes is the identity on backslash-free strings. -/
lemma backslashToSlash_eq_self {s : String} (h : strHasChar s '\\' = false) :
    backslashToSlash s = s := by
  unfold strHasChar at h
  have hmem : ('\\' : Char) ∉ s.toList := by
    intro hm
    rw [contains_iff_mem.mpr hm] at h
    exact Bool.noConfusion h
  have hcong : ∀ c ∈ s.toList, (if c = '\\' then '/' else c) = c := by
    intro c hc
    rw [if_neg]
    intro he; subst he; exact hmem hc
  unfold backslashToSlash
  rw [List.map_congr_left hcong, List.map_id']
  rfl

/-- Resolver soundness over a backslash-free index: a resolved path is a
key of the index. -/
lemma resolve_mem_of_clean_index (ff ip : String) (idx : List String)
    (hclean : ∀ k ∈ idx, strHasChar k '\\' = false)
    {r : String} (h : resolveImportPath ff ip idx = some r) : r ∈ idx := by
  by_cases hrel : strStartsWith ip "." = true
  · rw [resolveImportPath_eq_of_rel _ _ _ hrel] at h
    cases hfind : (stepCandidates ff ip).find? idx.contains with
    | some c =>
      rw [hfind] at h
      cases h
      exact contains_iff_mem.mp (List.find?_some hfind)
    | none =>
      rw [hfind] at h
      simp only [Option.map_eq_some'] at h
      obtain ⟨k, hk, hbk⟩ := h
      have hkmem := List.mem_of_find?_eq_some hk
      rw [← hbk, backslashToSlash_eq_self (hclean k hkmem)]
      exact hkmem
  · simp [resolveImportPath, hrel] at h

/-- `verifyStep` only ever appends the `Target not found` reason when the
index is backslash-free. -/
lemma verifyStep_reason (keys : List String)
    (hclean : ∀ k ∈ keys, strHasChar k '\\' = false) (p imp : String)
    (acc : List BrokenImport × Nat)
    (h : ∀ e ∈ acc.1, e.reason = reasonNotFound) :
    ∀ e ∈ (verifyStep keys p acc imp).1, e.reason = reasonNotFound := by
  intro e he
  unfold verifyStep at he
  split at he
  · exact h e he
  · split at he
    · rcases List.mem_append.mp he with h1 | h1
      · exact h e h1
      · rw [List.mem_singleton.mp h1]
    · rename_i r hres
      split at he
      · rename_i hnc
        exact absurd (contains_iff_mem.mpr (resolve_mem_of_clean_index _ _ _ hclean hres)) hnc
      · exact h e he

lemma verify_fold_inner_reason (keys : List String)
    (hclean : ∀ k ∈ keys, strHasChar k '\\' = false) (p : String)
    (imports : List String) :
    ∀ acc, (∀ e ∈ acc.1, e.reason = reasonNotFound) →
      ∀ e ∈ (imports.foldl (verifyStep keys p) acc).1, e.reason = reasonNotFound := by
  induction imports with
  | nil => intro acc h; exact h
  | cons imp rest ih =>
    intro acc h
    exact ih _ (verifyStep_reason keys hclean p imp acc h)

lemma verify_fold_outer_reason (keys : List String)
    (hclean : ∀ k ∈ keys, strHasChar k '\\' = false) (files : List FileRecord) :
    ∀ (acc : List BrokenImport × Nat), (∀ e ∈ acc.1, e.reason = reasonNotFound) →
      ∀ e ∈ (files.foldl (fun acc f => f.imports.foldl (verifyStep keys f.path) acc) acc).1,
        e.reason = reasonNotFound := by
  induction files with
  | nil => intro acc h; exact h
  | cons f rest ih =>
    intro acc h
    exact ih _ (verify_fold_inner_reason keys hclean f.path f.imports acc h)

/-- The C3/C9 scenario map: `a.js` imports `./b` (resolvable) and
`./missing` (broken); `b.js` imports nothing. -/
def scenarioBroken : ProjectMap :=
  ⟨[⟨"a.js", [], ["./b", "./missing"], ⟨[], none⟩⟩, ⟨"b.js", [], [], ⟨[], none⟩⟩]⟩

/-- The same map with the broken import removed. -/
def scenarioFixed : ProjectMap :=
  ⟨[⟨"a.js", [], ["./b"], ⟨[], none⟩⟩, ⟨"b.js", [], [], ⟨[], none⟩⟩]⟩

/-- A map whose only stored path contains a backslash, plus a clean
importing file. -/
def scenarioBackslash : ProjectMap :=
  ⟨[⟨"a\\b/x.py", [], [], ⟨[], none⟩⟩, ⟨"a/b/f.js", [], ["./x"], ⟨[], none⟩⟩]⟩

/-- **C9, counterexample.**  `resolveImportPath` is not sound for every
index: with the single key `a\b/x.py`, resolving `./x` from `a/b/f.js`
succeeds through the last-resort step but returns the backslash-fixed
string `a/b/x.py`, which is not a key of the index; consequently the
`'Resolved to ... but file not in map'` branch of `verifyProjectMap` is
reachable, as the map `scenarioBackslash` shows. -/
theorem resolver_unsound_backslash_counterexample :
    resolveImportPath "a/b/f.js" "./x" ["a\\b/x.py"] = some "a/b/x.py"
    ∧ (["a\\b/x.py"] : List String).contains "a/b/x.py" = false
    ∧ (verifyCore scenarioBackslash).brokenImports
        = [⟨"a/b/f.js", "./x", "Resolved to a/b/x.py but file not in map"⟩] := by
  refine ⟨by decide, by decide, by decide⟩

/-- **C9, amended.**  Over a backslash-free file index — which every map
built by `buildProjectMap` has, since it normalizes stored paths with
`replace(/\\/g, '/')` — a non-null resolver result is always a key of the
index, and the second failure branch of `verifyProjectMap` is
unreachable: every broken entry carries the `Target not found` reason. -/
theorem resolver_sound_for_clean_index :
    (∀ (fromFile importPath : String) (fileIndex : List String),
      (∀ k ∈ fileIndex, strHasChar k '\\' = false) →
      ∀ r, resolveImportPath fromFile importPath fileIndex = some r →
        fileIndex.contains r = true) ∧
    (∀ map : ProjectMap, (∀ f ∈ map.files, strHasChar f.path '\\' = false) →
      ∀ e ∈ (verifyCore map).brokenImports, e.reason = reasonNotFound) := by
  constructor
  · intro ff ip idx hclean r h
    exact contains_iff_mem.mpr (resolve_mem_of_clean_index ff ip idx hclean h)
  · intro map hclean e he
    have hkeys : ∀ k ∈ map.files.map (·.path), strHasChar k '\\' = false := by
      intro k hk
      obtain ⟨f, hf, rfl⟩ := List.mem_map.mp hk
      exact hclean f hf
    exact verify_fold_outer_reason _ hkeys map.files ([], 0) (by simp) e he

/-- Witness for the amended C9 at concrete inputs. -/
theorem resolver_sound_for_clean_index_witness :
    (["b.js"] : List String).contains "b.js" = true
    ∧ (⟨"a.js", "./missing", reasonNotFound⟩ : BrokenImport).reason = reasonNotFound :=
  ⟨resolver_sound_for_clean_index.1 "a.js" "./b" ["b.js"] (by decide) "b.js" (by decide),
   resolver_sound_for_clean_index.2 scenarioBroken (by decide)
     ⟨"a.js", "./missing", reasonNotFound⟩ (by decide)⟩

/-! ## C5 — cache-miss cases of `loadProjectMap` -/

/-- The three cache-miss cases the claim enumerates as exhaustive: no
persisted entry, version-field mismatch, hash mismatch. -/
def loadMissClaimCases (state : CacheFileState) (toolVersion expectedHash : String) : Prop :=
  state = CacheFileState.absent
  ∨ (∃ v h m, state = CacheFileState.parsed v h m ∧ v ≠ some toolVersion)
  ∨ (∃ v h m, state = CacheFileState.parsed v h m ∧ h ≠ some expectedHash)

/-- **C5, counterexample.**  A persisted cache file that exists but
cannot be read or parsed (`readFileSync`/`JSON.parse` throws, caught at
context-builder.js:250-252) also yields `null`, a fourth miss case
outside the claim's "exactly these" three. -/
theorem load_null_extra_case_counterexample :
    loadProjectMap CacheFileState.unreadable "1.0.0" "feedc0de" = none
    ∧ ¬ loadMissClaimCases CacheFileState.unreadable "1.0.0" "feedc0de" := by
  refine ⟨rfl, ?_⟩
  rintro (h | ⟨v, hh, m, heq, -⟩ | ⟨v, hh, m, heq, -⟩) <;> simp_all

/-- **C5, amended.**  `loadProjectMap` returns `null` exactly when: no
persisted entry exists, the persisted file is unreadable or unparsable,
the `version` field differs from the tool version, the `hash` differs
from the expected hash, or a matching entry stores no map; and it
returns a map only when version and hash both match and that map is the
persisted one.  It never throws (total function) and never returns a
partially-validated map. -/
theorem load_null_cases_amended (state : CacheFileState) (tv eh : String) :
    (loadProjectMap state tv eh = none ↔
      (state = CacheFileState.absent ∨ state = CacheFileState.unreadable
        ∨ (∃ v h m, state = CacheFileState.parsed v h m ∧ v ≠ some tv)
        ∨ (∃ v h m, state = CacheFileState.parsed v h m ∧ h ≠ some eh)
        ∨ state = CacheFileState.parsed (some tv) (some eh) none))
    ∧ (∀ m, loadProjectMap state tv eh = some m →
        state = CacheFileState.parsed (some tv) (some eh) (some m)) := by
  constructor
  · cases state with
    | absent => simp [loadProjectMap]
    | unreadable => simp [loadProjectMap]
    | parsed v h m =>
      simp only [loadProjectMap]
      constructor
      · intro hn
        by_cases hv : v = some tv
        · by_cases hh : h = some eh
          · subst hv; subst hh
            rw [if_neg (by simp), if_neg (by simp)] at hn
            subst hn
            exact Or.inr (Or.inr (Or.inr (Or.inr rfl)))
          · exact Or.inr (Or.inr (Or.inr (Or.inl ⟨v, h, m, rfl, hh⟩)))
        · exact Or.inr (Or.inr (Or.inl ⟨v, h, m, rfl, hv⟩))
      · rintro (habs | hunr | ⟨v', h', m', heq, hne⟩ | ⟨v', h', m', heq, hne⟩ | hnone)
        · exact CacheFileState.noConfusion habs
        · exact CacheFileState.noConfusion hunr
        · injection heq with e1 e2 e3
          subst e1; subst e2; subst e3
          rw [if_pos hne]
        · injection heq with e1 e2 e3
          subst e1; subst e2; subst e3
          by_cases hv : v = some tv
          · rw [if_neg (by simpa using hv), if_pos hne]
          · rw [if_pos hv]
        · injection hnone with e1 e2 e3
          subst e1; subst e2; subst e3
          rw [if_neg (by simp), if_neg (by simp)]
  · intro m hm
    cases state with
    | absent => exact Option.noConfusion hm
    | unreadable => exact Option.noConfusion hm
    | parsed v h mm =>
      simp only [loadProjectMap] at hm
      by_cases hv : v = some tv
      · by_cases hh : h = some eh
        · subst hv; subst hh
          rw [if_neg (by simp), if_neg (by simp)] at hm
          rw [hm]
        · rw [if_neg (by simpa using hv), if_pos hh] at hm
          exact Option.noConfusion hm
      · rw [if_pos hv] at hm
        exact Option.noConfusion hm

/-- Witness for the amended C5: a matching entry is returned as-is, and
an unreadable cache file is a miss. -/
theorem load_null_cases_amended_witness :
    CacheFileState.parsed (some "1.0.0") (some "feedc0de") (some (⟨[]⟩ : ProjectMap))
      = CacheFileState.parsed (some "1.0.0") (some "feedc0de") (some ⟨[]⟩)
    ∧ loadProjectMap CacheFileState.unreadable "1.0.0" "feedc0de" = none :=
  ⟨(load_null_cases_amended
      (CacheFileState.parsed (some "1.0.0") (some "feedc0de") (some ⟨[]⟩)) "1.0.0" "feedc0de").2
      ⟨[]⟩ (by decide),
   (load_null_cases_amended CacheFileState.unreadable "1.0.0" "feedc0de").1.mpr
      (Or.inr (Or.inl rfl))⟩

/-! ## C8 — behaviour on a nonexistent root directory -/

/-- A concrete no-op ignore predicate for witnesses. -/
def ignoreNothing : String → Bool := fun _ => false

/-- A concrete lexical extractor for witnesses: path only, nothing
extracted. -/
def trivialExtract : String → String → FileRecord :=
  fun p _ => ⟨p, [], [], ⟨[], none⟩⟩

/-- **C8, counterexample.**  With a nonexistent root (every `readdirSync`
throws, caught inside `collectSourceFiles`/`buildTree`) and no cache,
`buildProjectMap` does not reject: it completes normally and returns a
freshly built, empty Project Map. -/
theorem build_completes_on_missing_root_counterexample :
    buildProjectMap ignoreNothing [".js"] trivialExtract 100000
      CacheFileState.absent "1.0.0" false none = ⟨false, []⟩ := by
  rfl

/-- **C8, amended.**  The core does not reject a missing root:
`collectSourceFiles` swallows the `readdirSync` error and returns the
empty list, and `buildProjectMap` completes with an empty `files` list
(for every ignore predicate, extension list, extractor, size limit,
tool version and force flag).  The root-existence check lives in the
CLI: `runCli` reports `Directory does not exist` and exits with code 1
before invoking the core. -/
theorem missing_root_empty_map_and_cli_rejects
    (ign : String → Bool) (exts : List String)
    (extract : String → String → FileRecord) (maxFileSize : Nat)
    (toolVersion : String) (force : Bool) (absolutePath : String) :
    (buildProjectMap ign exts extract maxFileSize CacheFileState.absent
        toolVersion force none).files = []
    ∧ collectSourceFiles ign exts none = []
    ∧ runCliRootCheck false absolutePath
        = Except.error ("Error: Directory does not exist: " ++ absolutePath) := by
  refine ⟨?_, rfl, rfl⟩
  unfold buildProjectMap collectSourceFiles
  cases force <;> simp [loadProjectMap]

/-! ## C7 — the map hash reads only path, size, and a 1KB content prefix -/

/-- All `calculateMapHash` sees of one file: its relative path and, when
the filesystem calls succeed, its byte size and the first 1024 characters
of its content. -/
def hfKey (f : HashedFile) : String × Option (Nat × String) :=
  (f.rel, f.readResult.map (fun p => (p.1, strTake p.2 1024)))

/-- The per-file fold text as a function of the key alone. -/
def keyFold : String × Option (Nat × String) → String
  | (rel, some (size, pref)) =>
    rel ++ ":" ++ Nat.repr size ++ ":" ++ strTake (md5Hex (utf8Bytes pref)) 8
  | (rel, none) => rel ++ ":missing"

lemma fileFold_eq_keyFold (f : HashedFile) : fileFold f = keyFold (hfKey f) := by
  cases f with
  | mk rel rr =>
    cases rr with
    | none => rfl
    | some p => cases p; rfl

lemma sortInsert_map_key (x y : HashedFile) (hxy : hfKey x = hfKey y) :
    ∀ (l1 l2 : List HashedFile), l1.map hfKey = l2.map hfKey →
      (sortInsert x l1).map hfKey = (sortInsert y l2).map hfKey := by
  intro l1
  induction l1 with
  | nil =>
    intro l2 h
    cases l2 with
    | nil => simp [sortInsert, hxy]
    | cons b bs => simp at h
  | cons a as ih =>
    intro l2 h
    cases l2 with
    | nil => simp at h
    | cons b bs =>
      simp only [List.map_cons, List.cons.injEq] at h
      obtain ⟨hab, hrest⟩ := h
      have hrel : x.rel = y.rel := congrArg Prod.fst hxy
      have hrelab : a.rel = b.rel := congrArg Prod.fst hab
      simp only [sortInsert]
      by_cases hc : lexLe x.rel a.rel = true
      · rw [if_pos hc, if_pos (by rw [← hrel, ← hrelab]; exact hc)]
        simp [hxy, hab, hrest]
      · rw [if_neg hc, if_neg (by rw [← hrel, ← hrelab]; exact hc)]
        simp only [List.map_cons, List.cons.injEq]
        exact ⟨hab, ih bs hrest⟩

lemma sortByRel_map_key : ∀ (l1 l2 : List HashedFile), l1.map hfKey = l2.map hfKey →
    (sortByRel l1).map hfKey = (sortByRel l2).map hfKey := by
  intro l1
  induction l1 with
  | nil =>
    intro l2 h
    cases l2 with
    | nil => rfl
    | cons b bs => simp at h
  | cons a as ih =>
    intro l2 h
    cases l2 with
    | nil => simp at h
    | cons b bs =>
      simp only [List.map_cons, List.cons.injEq] at h
      obtain ⟨hab, hrest⟩ := h
      show (sortInsert a (sortByRel as)).map hfKey = (sortInsert b (sortByRel bs)).map hfKey
      exact sortInsert_map_key a b hab _ _ (ih bs hrest)

/-- **C7.**  The per-file contribution to the map hash depends only on
the file's relative path, its byte size, and a digest of the first 1024
characters of its content: any two file lists that agree on those keys —
in particular two file sets whose files differ only in content after
that prefix — produce the same `calculateMapHash` value, and therefore a
false cache hit on the next `loadProjectMap` comparison. -/
theorem maphash_depends_only_on_prefix (l1 l2 : List HashedFile)
    (h : l1.map hfKey = l2.map hfKey) :
    calculateMapHash l1 = calculateMapHash l2 := by
  unfold calculateMapHash
  have hmaps : (sortByRel l1).map fileFold = (sortByRel l2).map fileFold := by
    have hkeys := sortByRel_map_key l1 l2 h
    calc (sortByRel l1).map fileFold
        = ((sortByRel l1).map hfKey).map keyFold := by
          rw [List.map_map]
          exact List.map_congr_left (fun f _ => fileFold_eq_keyFold f)
      _ = ((sortByRel l2).map hfKey).map keyFold := by rw [hkeys]
      _ = (sortByRel l2).map fileFold := by
          rw [List.map_map]
          exact List.map_congr_left (fun f _ => (fileFold_eq_keyFold f).symm)
  rw [hmaps]

/-- A 1025-character content ending in `X`. -/
def longContentA : String := String.mk (List.replicate 1024 'a' ++ ['X'])

/-- The same content with the single character after the 1KB prefix
changed to `Y`. -/
def longContentB : String := String.mk (List.replicate 1024 'a' ++ ['Y'])

set_option maxRecDepth 8000 in
/-- Witness for C7: two equal-sized files identical in the first 1024
characters but different afterwards hash identically. -/
theorem maphash_depends_only_on_prefix_witness :
    longContentA ≠ longContentB
    ∧ calculateMapHash [⟨"f.js", some (1025, longContentA)⟩]
        = calculateMapHash [⟨"f.js", some (1025, longContentB)⟩] :=
  ⟨by decide, maphash_depends_only_on_prefix _ _ (by decide)⟩

/-! ## C4 — permutation invariance of `calculateMapHash` -/

lemma char_toNat_inj {a b : Char} (h : a.toNat = b.toNat) : a = b := by
  cases a with
  | mk av ah =>
    cases b with
    | mk bv bh =>
      congr 1
      exact UInt32.ext h

lemma lexLtChars_asymm : ∀ {a b : List Char},
    lexLtChars a b = true → lexLtChars b a = false := by
  intro a
  induction a with
  | nil =>
    intro b h
    cases b with
    | nil => exact Bool.noConfusion h
    | cons y ys => rfl
  | cons x xs ih =>
    intro b h
    cases b with
    | nil => exact Bool.noConfusion h
    | cons y ys =>
      unfold lexLtChars at h ⊢
      by_cases hxy : x = y
      · rw [if_pos hxy] at h
        rw [if_pos hxy.symm]
        exact ih h
      · rw [if_neg hxy] at h
        rw [if_neg (fun he => hxy he.symm)]
        simp only [decide_eq_true_eq] at h
        simp only [decide_eq_false_iff_not]
        omega

lemma lexLtChars_connex : ∀ {a b : List Char},
    a ≠ b → lexLtChars a b = true ∨ lexLtChars b a = true := by
  intro a
  induction a with
  | nil =>
    intro b h
    cases b with
    | nil => exact absurd rfl h
    | cons y ys => exact Or.inl rfl
  | cons x xs ih =>
    intro b h
    cases b with
    | nil => exact Or.inr rfl
    | cons y ys =>
      unfold lexLtChars
      by_cases hxy : x = y
      · subst hxy
        rw [if_pos rfl, if_pos rfl]
        exact ih (fun he => h (by rw [he]))
      · rw [if_neg hxy, if_neg (fun he => hxy he.symm)]
        have hne : x.toNat ≠ y.toNat := fun he => hxy (char_toNat_inj he)
        rcases Nat.lt_or_gt_of_ne hne with hlt | hgt
        · exact Or.inl (by simpa using hlt)
        · exact Or.inr (by simpa using hgt)

lemma lexLtChars_trans : ∀ {a b c : List Char},
    lexLtChars a b = true → lexLtChars b c = true → lexLtChars a c = true := by
  intro a
  induction a with
  | nil =>
    intro b c h1 h2
    cases b with
    | nil => exact Bool.noConfusion h1
    | cons y ys =>
      cases c with
      | nil => exact Bool.noConfusion h2
      | cons z zs => rfl
  | cons x xs ih =>
    intro b c h1 h2
    cases b with
    | nil => exact Bool.noConfusion h1
    | cons y ys =>
      cases c with
      | nil => exact Bool.noConfusion h2
      | cons z zs =>
        unfold lexLtChars at h1 h2 ⊢
        by_cases hxy : x = y
        · subst hxy
          rw [if_pos rfl] at h1
          by_cases hyz : x = z
          · subst hyz
            rw [if_pos rfl] at h2
            rw [if_pos rfl]
            exact ih h1 h2
          · rw [if_neg hyz] at h2
            rw [if_neg hyz]
            exact h2
        · rw [if_neg hxy] at h1
          simp only [decide_eq_true_eq] at h1
          by_cases hyz : y = z
          · subst hyz
            rw [if_neg hxy]
            simpa using h1
          · rw [if_neg hyz] at h2
            simp only [decide_eq_true_eq] at h2
            have hxz : x.toNat < z.toNat := Nat.lt_trans h1 h2
            rw [if_neg (fun he => absurd (congrArg Char.toNat he) (Nat.ne_of_lt hxz))]
            simpa using hxz

lemma lexLt_asymm {a b : String} (h : lexLt a b = true) : lexLt b a = false :=
  lexLtChars_asymm h

lemma lexLt_connex {a b : String} (h : a ≠ b) :
    lexLt a b = true ∨ lexLt b a = true :=
  lexLtChars_connex (fun he => h (String.ext he))

lemma lexLt_trans {a b c : String} (h1 : lexLt a b = true) (h2 : lexLt b c = true) :
    lexLt a c = true :=
  lexLtChars_trans h1 h2

lemma lexLe_trans {a b c : String} (h1 : lexLe a b = true) (h2 : lexLe b c = true) :
    lexLe a c = true := by
  unfold lexLe at h1 h2 ⊢
  simp only [Bool.not_eq_true'] at h1 h2 ⊢
  by_cases hca : lexLt c a = true
  · exfalso
    by_cases hbc : b = c
    · subst hbc
      rw [hca] at h1
      exact Bool.noConfusion h1
    · rcases lexLt_connex hbc with hlt | hlt
      · have hba := lexLt_trans hlt hca
        rw [hba] at h1
        exact Bool.noConfusion h1
      · rw [hlt] at h2
        exact Bool.noConfusion h2
  · simpa using hca

lemma mem_sortInsert {x z : HashedFile} :
    ∀ {l : List HashedFile}, z ∈ sortInsert x l ↔ z = x ∨ z ∈ l := by
  intro l
  induction l with
  | nil => simp [sortInsert]
  | cons y ys ih =>
    simp only [sortInsert]
    by_cases hc : lexLe x.rel y.rel = true
    · rw [if_pos hc]
      simp [List.mem_cons]
    · rw [if_neg hc]
      simp only [List.mem_cons, ih]
      tauto

lemma sortInsert_perm (x : HashedFile) :
    ∀ (l : List HashedFile), (sortInsert x l).Perm (x :: l) := by
  intro l
  induction l with
  | nil => exact List.Perm.refl _
  | cons y ys ih =>
    simp only [sortInsert]
    by_cases hc : lexLe x.rel y.rel = true
    · rw [if_pos hc]
    · rw [if_neg hc]
      exact (ih.cons y).trans (List.Perm.swap x y ys)

lemma sortByRel_perm (l : List HashedFile) : (sortByRel l).Perm l := by
  induction l with
  | nil => exact List.Perm.refl _
  | cons a as ih =>
    show (sortInsert a (sortByRel as)).Perm (a :: as)
    exact (sortInsert_perm a (sortByRel as)).trans (ih.cons a)

/-- The strict sort key order on hashed files. -/
def relLt (a b : HashedFile) : Prop := lexLt a.rel b.rel = true

instance : IsAntisymm HashedFile relLt :=
  ⟨fun a b h1 h2 => by
    unfold relLt at h1 h2
    rw [lexLt_asymm h1] at h2
    exact Bool.noConfusion h2⟩

lemma sortInsert_sorted (x : HashedFile) :
    ∀ {l : List HashedFile},
      List.Pairwise (fun a b => lexLe a.rel b.rel = true) l →
      List.Pairwise (fun a b => lexLe a.rel b.rel = true) (sortInsert x l) := by
  intro l
  induction l with
  | nil => intro _; simp [sortInsert]
  | cons y ys ih =>
    intro hp
    rcases List.pairwise_cons.mp hp with ⟨hy, hys⟩
    simp only [sortInsert]
    by_cases hc : lexLe x.rel y.rel = true
    · rw [if_pos hc]
      refine List.pairwise_cons.mpr ⟨?_, hp⟩
      intro z hz
      rcases List.mem_cons.mp hz with rfl | hz2
      · exact hc
      · exact lexLe_trans hc (hy z hz2)
    · rw [if_neg hc]
      refine List.pairwise_cons.mpr ⟨?_, ih hys⟩
      intro z hz
      rcases mem_sortInsert.mp hz with hzx | hz2
      · -- ¬ (x ≤ y) means y < x strictly, hence y ≤ x
        have hyx : lexLt y.rel x.rel = true := by
          unfold lexLe at hc
          simpa using hc
        rw [hzx]
        show lexLe y.rel x.rel = true
        unfold lexLe
        rw [lexLt_asymm hyx]
        rfl
      · exact hy z hz2

lemma sortByRel_sorted (l : List HashedFile) :
    List.Pairwise (fun a b => lexLe a.rel b.rel = true) (sortByRel l) := by
  induction l with
  | nil => exact List.Pairwise.nil
  | cons a as ih =>
    show List.Pairwise _ (sortInsert a (sortByRel as))
    exact sortInsert_sorted a ih

lemma sorted_nodup_strict {l : List HashedFile}
    (hs : List.Pairwise (fun a b => lexLe a.rel b.rel = true) l)
    (hnd : (l.map (·.rel)).Nodup) :
    List.Pairwise relLt l := by
  have hne : List.Pairwise (fun a b => a.rel ≠ b.rel) l := List.pairwise_map.mp hnd
  refine (hs.and hne).imp ?_
  rintro a b ⟨h1, h2⟩
  rcases lexLt_connex h2 with hlt | hlt
  · exact hlt
  · unfold lexLe at h1
    rw [hlt] at h1
    exact Bool.noConfusion h1

/-- Two permuted lists with pairwise-distinct relative paths sort to the
same list. -/
lemma sortByRel_eq_of_perm {l1 l2 : List HashedFile}
    (hnd : (l1.map (·.rel)).Nodup) (hp : l1.Perm l2) :
    sortByRel l1 = sortByRel l2 := by
  have hp2 : (sortByRel l1).Perm (sortByRel l2) :=
    (sortByRel_perm l1).trans (hp.trans (sortByRel_perm l2).symm)
  have hnd1 : ((sortByRel l1).map (·.rel)).Nodup :=
    (((sortByRel_perm l1).map (·.rel)).symm).nodup hnd
  have hnd2 : ((sortByRel l2).map (·.rel)).Nodup :=
    (((sortByRel_perm l2).map (·.rel)).symm).nodup ((hp.map (·.rel)).nodup hnd)
  exact List.eq_of_perm_of_sorted hp2
    (sorted_nodup_strict (sortByRel_sorted l1) hnd1)
    (sorted_nodup_strict (sortByRel_sorted l2) hnd2)

set_option maxRecDepth 8000 in
/-- **C4, counterexample.**  With two entries sharing the relative path
`a` (but different contents), the stable sort preserves their relative
order, so reordering the input changes the digest input and the hash:
`calculateMapHash` is not invariant under every permutation of every
file list. -/
theorem maphash_not_permutation_invariant_counterexample :
    ¬ (calculateMapHash [⟨"a", some (1, "x")⟩, ⟨"a", some (1, "y")⟩]
        = calculateMapHash [⟨"a", some (1, "y")⟩, ⟨"a", some (1, "x")⟩])
    ∧ ([⟨"a", some (1, "y")⟩, ⟨"a", some (1, "x")⟩] : List HashedFile).Perm
        [⟨"a", some (1, "x")⟩, ⟨"a", some (1, "y")⟩] := by
  constructor
  · decide
  · exact List.Perm.swap _ _ _

/-- **C4, amended.**  `calculateMapHash` is invariant under permutation
of its input file list whenever the per-file relative paths are pairwise
distinct — as they are for any list produced by the directory walk,
which yields each file once.  (With duplicated paths the stable sort
preserves input order among equal keys, and the counterexample above
applies.) -/
theorem maphash_permutation_invariant_on_distinct_paths
    (l1 l2 : List HashedFile) (hnd : (l1.map (·.rel)).Nodup)
    (hp : l1.Perm l2) :
    calculateMapHash l1 = calculateMapHash l2 := by
  unfold calculateMapHash
  rw [sortByRel_eq_of_perm hnd hp]

/-- Witness for the amended C4 at a concrete two-file shuffle. -/
theorem maphash_permutation_invariant_on_distinct_paths_witness :
    calculateMapHash [⟨"b.js", some (2, "yy")⟩, ⟨"a.js", some (1, "x")⟩]
      = calculateMapHash [⟨"a.js", some (1, "x")⟩, ⟨"b.js", some (2, "yy")⟩] :=
  maphash_permutation_invariant_on_distinct_paths _ _ (by decide)
    (List.Perm.swap _ _ _)

/-! ## C3 — shape of the `verify` result -/

/-- What one `(file, import)` pair contributes to `brokenImports`. -/
def checkImport (fileMap : List String) (fpath imp : String) : Option BrokenImport :=
  if ¬ strStartsWith imp "." then none
  else
    match resolveImportPath fpath imp fileMap with
    | none => some ⟨fpath, imp, reasonNotFound⟩
    | some r =>
      if ¬ fileMap.contains r then
        some ⟨fpath, imp, "Resolved to " ++ r ++ " but file not in map"⟩
      else none

/-- Number of relative import specifiers of one file record. -/
def relImportCount (f : FileRecord) : Nat :=
  (f.imports.filter (fun imp => strStartsWith imp ".")).length

lemma verify_inner_fold (keys : List String) (p : String) (imports : List String) :
    ∀ (acc : List BrokenImport × Nat),
      imports.foldl (verifyStep keys p) acc
        = (acc.1 ++ imports.filterMap (checkImport keys p),
           acc.2 + (imports.filter (fun imp => strStartsWith imp ".")).length) := by
  induction imports with
  | nil => intro acc; simp
  | cons imp rest ih =>
    intro acc
    rw [List.foldl_cons, ih, List.filterMap_cons, List.filter_cons]
    by_cases h1 : strStartsWith imp "." = true
    · cases hres : resolveImportPath p imp keys with
      | none =>
        simp [verifyStep, checkImport, h1, hres]
        omega
      | some r =>
        by_cases hc : r ∈ keys
        · simp [verifyStep, checkImport, h1, hres, hc]
          omega
        · simp [verifyStep, checkImport, h1, hres, hc]
          omega
    · simp [verifyStep, checkImport, h1]

lemma verify_outer_fold (keys : List String) (files : List FileRecord) :
    ∀ (acc : List BrokenImport × Nat),
      files.foldl (fun acc f => f.imports.foldl (verifyStep keys f.path) acc) acc
        = (acc.1 ++ files.flatMap (fun f => f.imports.filterMap (checkImport keys f.path)),
           acc.2 + (files.map relImportCount).sum) := by
  induction files with
  | nil => intro acc; simp
  | cons f rest ih =>
    intro acc
    rw [List.foldl_cons, ih, verify_inner_fold, List.flatMap_cons, List.map_cons,
      List.sum_cons, Prod.mk.injEq]
    constructor
    · simp
    · show acc.2 + _ + _ = acc.2 + (relImportCount f + _)
      unfold relImportCount
      omega

/-- The `brokenImports` list of `verifyCore`, in closed form. -/
def verifyBroken (map : ProjectMap) : List BrokenImport :=
  map.files.flatMap
    (fun f => f.imports.filterMap (checkImport (map.files.map (·.path)) f.path))

lemma verifyCore_eq (map : ProjectMap) :
    verifyCore map
      = ⟨(verifyBroken map).isEmpty, verifyBroken map,
         (map.files.map relImportCount).sum⟩ := by
  simp only [verifyCore, verifyBroken]
  rw [verify_outer_fold]
  simp

lemma checkImport_fields {keys : List String} {p imp : String} {e : BrokenImport}
    (h : checkImport keys p imp = some e) :
    e.fromPath = p ∧ e.importSpec = imp := by
  unfold checkImport at h
  split at h
  · exact Option.noConfusion h
  · split at h
    · cases h; exact ⟨rfl, rfl⟩
    · split at h
      · cases h; exact ⟨rfl, rfl⟩
      · exact Option.noConfusion h

/-- The entry filter used to state "appears exactly once". -/
def entryFor (p imp : String) (e : BrokenImport) : Bool :=
  e.fromPath == p && e.importSpec == imp

lemma filter_entry_of_other_path {keys : List String} {p' p imp : String}
    (hne : p' ≠ p) (imports : List String) :
    (imports.filterMap (checkImport keys p')).filter (entryFor p imp) = [] := by
  rw [List.filter_eq_nil_iff]
  intro e he
  obtain ⟨a, _, ha⟩ := List.mem_filterMap.mp he
  obtain ⟨hf, _⟩ := checkImport_fields ha
  unfold entryFor
  simp [hf, hne]

lemma filter_entry_own_file {keys : List String} {p imp : String}
    {imports : List String} (hnd : imports.Nodup) (hmem : imp ∈ imports)
    (hrel : strStartsWith imp "." = true)
    (hres : resolveImportPath p imp keys = none) :
    (imports.filterMap (checkImport keys p)).filter (entryFor p imp)
      = [⟨p, imp, reasonNotFound⟩] := by
  induction imports with
  | nil => cases hmem
  | cons a rest ih =>
    rw [List.filterMap_cons]
    rcases List.mem_cons.mp hmem with rfl | h2
    · have hstep : checkImport keys p imp = some ⟨p, imp, reasonNotFound⟩ := by
        unfold checkImport
        rw [if_neg (by simp [hrel]), hres]
      rw [hstep, List.filter_cons, if_pos (by simp [entryFor])]
      have hrest : (rest.filterMap (checkImport keys p)).filter (entryFor p imp) = [] := by
        rw [List.filter_eq_nil_iff]
        intro e he
        obtain ⟨a', ha'mem, ha'⟩ := List.mem_filterMap.mp he
        obtain ⟨-, hi⟩ := checkImport_fields ha'
        have : a' ≠ imp := fun heq => (List.nodup_cons.mp hnd).1 (heq ▸ ha'mem)
        unfold entryFor
        simp [hi, this]
      rw [hrest]
    · have hane : a ≠ imp := fun he => (List.nodup_cons.mp hnd).1 (he ▸ h2)
      have htail := ih (List.nodup_cons.mp hnd).2 h2
      cases hca : checkImport keys p a with
      | none => exact htail
      | some e =>
        obtain ⟨-, hi⟩ := checkImport_fields hca
        have hef : entryFor p imp e = false := by
          unfold entryFor
          simp [hi, hane]
        rw [List.filter_cons, hef, if_neg (by simp)]
        exact htail

lemma filter_entry_flatMap (keys : List String) :
    ∀ (files : List FileRecord), (files.map (·.path)).Nodup →
      ∀ f ∈ files, f.imports.Nodup → ∀ imp ∈ f.imports,
        strStartsWith imp "." = true →
        resolveImportPath f.path imp keys = none →
        (files.flatMap (fun g => g.imports.filterMap (checkImport keys g.path))).filter
            (entryFor f.path imp)
          = [⟨f.path, imp, reasonNotFound⟩] := by
  intro files
  induction files with
  | nil => intro _ f hf; cases hf
  | cons g rest ih =>
    intro hnd f hf hfnd imp himp hrel hres
    rw [List.flatMap_cons, List.filter_append]
    rw [List.map_cons] at hnd
    have hndc := List.nodup_cons.mp hnd
    rcases List.mem_cons.mp hf with rfl | hf2
    · rw [filter_entry_own_file hfnd himp hrel hres]
      have hrest : (rest.flatMap
          (fun g => g.imports.filterMap (checkImport keys g.path))).filter
            (entryFor f.path imp) = [] := by
        rw [List.filter_eq_nil_iff]
        intro e he
        obtain ⟨g', hg'mem, hg'⟩ := List.mem_flatMap.mp he
        obtain ⟨a', -, ha'⟩ := List.mem_filterMap.mp hg'
        obtain ⟨hfp, -⟩ := checkImport_fields ha'
        have hgne : g'.path ≠ f.path := by
          intro heq
          exact hndc.1 (heq ▸ List.mem_map_of_mem (·.path) hg'mem)
        unfold entryFor
        simp [hfp, hgne]
      rw [hrest, List.append_nil]
    · have hgne : g.path ≠ f.path := by
        intro heq
        exact hndc.1 (heq ▸ List.mem_map_of_mem (·.path) hf2)
      rw [filter_entry_of_other_path hgne]
      rw [List.nil_append]
      exact ih hndc.2 f hf2 hfnd imp himp hrel hres

/-- **C3.**  For every Project Map (with the data-model invariants: file
paths unique, per-file imports deduplicated — both guaranteed by the
builder): `ok` is true iff `brokenImports` is empty; `totalChecked`
counts exactly the `(file, import)` pairs whose specifier starts with
`.` (non-relative specifiers contribute nothing); each relative import
whose resolution returns `null` appears as exactly one `{ from, import,
reason }` entry; and on the concrete scenario map with the one broken import
`./missing`, `brokenImports` has exactly one entry with `ok =
false` and `totalChecked = 2`, while removing that import gives `ok =
true` and `totalChecked = 1`. -/
theorem verify_ok_counts_and_null_entries (map : ProjectMap)
    (hpaths : (map.files.map (·.path)).Nodup)
    (himps : ∀ f ∈ map.files, f.imports.Nodup) :
    ((verifyCore map).ok = true ↔ (verifyCore map).brokenImports = [])
    ∧ (verifyCore map).totalChecked = (map.files.map relImportCount).sum
    ∧ (∀ f ∈ map.files, ∀ imp ∈ f.imports, strStartsWith imp "." = true →
        resolveImportPath f.path imp (map.files.map (·.path)) = none →
        (verifyCore map).brokenImports.filter (entryFor f.path imp)
          = [⟨f.path, imp, reasonNotFound⟩])
    ∧ verifyCore scenarioBroken
        = ⟨false, [⟨"a.js", "./missing", reasonNotFound⟩], 2⟩
    ∧ verifyCore scenarioFixed = ⟨true, [], 1⟩ := by
  refine ⟨?_, ?_, ?_, by decide, by decide⟩
  · rw [verifyCore_eq]
    exact List.isEmpty_iff
  · rw [verifyCore_eq]
  · intro f hf imp himp hrel hres
    rw [verifyCore_eq]
    exact filter_entry_flatMap _ map.files hpaths f hf (himps f hf) imp himp hrel hres

/-- Witness for C3 on the concrete scenario maps. -/
theorem verify_ok_counts_and_null_entries_witness :
    ((verifyCore scenarioBroken).ok = true ↔ (verifyCore scenarioBroken).brokenImports = [])
    ∧ (verifyCore scenarioBroken).brokenImports.filter (entryFor "a.js" "./missing")
        = [⟨"a.js", "./missing", reasonNotFound⟩] :=
  ⟨(verify_ok_counts_and_null_entries scenarioBroken (by decide) (by decide)).1,
   (verify_ok_counts_and_null_entries scenarioBroken (by decide) (by decide)).2.2.1
     ⟨"a.js", [], ["./b", "./missing"], ⟨[], none⟩⟩ (by decide) "./missing" (by decide)
     (by decide) (by decide)⟩

/-! ## C2 — impact symmetry of `getAffectedFiles` -/

lemma mem_setAdd {l : List String} {x y : String} :
    y ∈ setAdd l x ↔ y ∈ l ∨ y = x := by
  unfold setAdd
  by_cases hc : l.contains x = true
  · rw [if_pos hc]
    constructor
    · exact Or.inl
    · rintro (h | rfl)
      · exact h
      · exact contains_iff_mem.mp hc
  · rw [if_neg hc]
    simp

lemma mem_depFold_aux (fileMap : List String) (fromPath : String)
    (imports : List String) :
    ∀ (acc : List String) (x : String),
      x ∈ imports.foldl (depStep fileMap fromPath) acc ↔
        x ∈ acc ∨ ∃ imp ∈ imports, resolveImportPath fromPath imp fileMap = some x := by
  induction imports with
  | nil => intro acc x; simp
  | cons imp rest ih =>
    intro acc x
    rw [List.foldl_cons, ih]
    show x ∈ depStep fileMap fromPath acc imp ∨ _ ↔ _
    unfold depStep
    cases hres : resolveImportPath fromPath imp fileMap with
    | none =>
      simp only [List.exists_mem_cons_iff, hres]
      constructor
      · rintro (h | h)
        · exact Or.inl h
        · exact Or.inr (Or.inr h)
      · rintro (h | h | h)
        · exact Or.inl h
        · exact Option.noConfusion h
        · exact Or.inr h
    | some r =>
      rw [mem_setAdd]
      simp only [List.exists_mem_cons_iff, hres, Option.some.injEq]
      constructor
      · rintro ((h | rfl) | h)
        · exact Or.inl h
        · exact Or.inr (Or.inl rfl)
        · exact Or.inr (Or.inr h)
      · rintro (h | h | h)
        · exact Or.inl (Or.inl h)
        · exact Or.inl (Or.inr h.symm)
        · exact Or.inr h

lemma mem_dependenciesFold {fileMap : List String} {fromPath : String}
    {imports : List String} {x : String} :
    x ∈ dependenciesFold imports fromPath fileMap ↔
      ∃ imp ∈ imports, resolveImportPath fromPath imp fileMap = some x := by
  unfold dependenciesFold
  rw [mem_depFold_aux]
  simp

lemma mem_depdtInner_aux (fileMap : List String) (focus relPath fpath : String)
    (imports : List String) :
    ∀ (acc : List String) (x : String),
      x ∈ imports.foldl (depdtStep fileMap focus relPath fpath) acc ↔
        x ∈ acc ∨ (x = fpath ∧ ∃ imp ∈ imports, ∃ r,
          resolveImportPath fpath imp fileMap = some r ∧
          (normalizePath r = focus ∨ r = relPath)) := by
  induction imports with
  | nil => intro acc x; simp
  | cons imp rest ih =>
    intro acc x
    rw [List.foldl_cons, ih]
    show x ∈ depdtStep fileMap focus relPath fpath acc imp ∨ _ ↔ _
    unfold depdtStep
    cases hres : resolveImportPath fpath imp fileMap with
    | none =>
      simp only [List.exists_mem_cons_iff, hres]
      constructor
      · rintro (h | ⟨hx, himp⟩)
        · exact Or.inl h
        · exact Or.inr ⟨hx, Or.inr himp⟩
      · rintro (h | ⟨hx, ⟨r, hr, -⟩ | himp⟩)
        · exact Or.inl h
        · exact Option.noConfusion hr
        · exact Or.inr ⟨hx, himp⟩
    | some r =>
      show x ∈ (if normalizePath r = focus ∨ r = relPath then setAdd acc fpath else acc)
          ∨ _ ↔ _
      by_cases hcond : normalizePath r = focus ∨ r = relPath
      · rw [if_pos hcond, mem_setAdd]
        simp only [List.exists_mem_cons_iff, hres, Option.some.injEq]
        constructor
        · rintro ((h | rfl) | ⟨hx, himp⟩)
          · exact Or.inl h
          · exact Or.inr ⟨rfl, Or.inl ⟨r, rfl, hcond⟩⟩
          · exact Or.inr ⟨hx, Or.inr himp⟩
        · rintro (h | ⟨hx, ⟨r', hr', hcond'⟩ | himp⟩)
          · exact Or.inl (Or.inl h)
          · exact Or.inl (Or.inr hx)
          · exact Or.inr ⟨hx, himp⟩
      · rw [if_neg hcond]
        simp only [List.exists_mem_cons_iff, hres, Option.some.injEq]
        constructor
        · rintro (h | ⟨hx, himp⟩)
          · exact Or.inl h
          · exact Or.inr ⟨hx, Or.inr himp⟩
        · rintro (h | ⟨hx, ⟨r', hr', hcond'⟩ | himp⟩)
          · exact Or.inl h
          · exact absurd (hr' ▸ hcond') hcond
          · exact Or.inr ⟨hx, himp⟩

lemma mem_dependentsFold {files : List FileRecord} {fileMap : List String}
    {focus relPath x : String} :
    x ∈ dependentsFold files fileMap focus relPath ↔
      ∃ f ∈ files, x = f.path ∧ ∃ imp ∈ f.imports, ∃ r,
        resolveImportPath f.path imp fileMap = some r ∧
        (normalizePath r = focus ∨ r = relPath) := by
  unfold dependentsFold
  have haux : ∀ (fs : List FileRecord) (acc : List String),
      x ∈ fs.foldl (fun acc f =>
        f.imports.foldl (depdtStep fileMap focus relPath f.path) acc) acc ↔
        x ∈ acc ∨ ∃ f ∈ fs, x = f.path ∧ ∃ imp ∈ f.imports, ∃ r,
          resolveImportPath f.path imp fileMap = some r ∧
          (normalizePath r = focus ∨ r = relPath) := by
    intro fs
    induction fs with
    | nil => intro acc; simp
    | cons g rest ihf =>
      intro acc
      simp only [List.foldl_cons]
      rw [ihf, mem_depdtInner_aux]
      simp only [List.exists_mem_cons_iff]
      constructor
      · rintro ((h | h) | h)
        · exact Or.inl h
        · exact Or.inr (Or.inl h)
        · exact Or.inr (Or.inr h)
      · rintro (h | h | h)
        · exact Or.inl (Or.inl h)
        · exact Or.inl (Or.inr h)
        · exact Or.inr h
  rw [haux]
  simp

lemma eq_of_path_eq : ∀ {files : List FileRecord},
    (files.map (·.path)).Nodup →
    ∀ {f g : FileRecord}, f ∈ files → g ∈ files → f.path = g.path → f = g := by
  intro files
  induction files with
  | nil => intro _ f g hf; cases hf
  | cons a rest ih =>
    intro hnd f g hf hg hpq
    rw [List.map_cons] at hnd
    have hndc := List.nodup_cons.mp hnd
    rcases List.mem_cons.mp hf with rfl | hf2
    · rcases List.mem_cons.mp hg with rfl | hg2
      · rfl
      · exact absurd (hpq ▸ List.mem_map_of_mem (·.path) hg2) hndc.1
    · rcases List.mem_cons.mp hg with rfl | hg2
      · exact absurd (hpq ▸ List.mem_map_of_mem (·.path) hf2) hndc.1
      · exact ih hndc.2 hf2 hg2 hpq

lemma map_eq_self_forall {α : Type} {f : α → α} :
    ∀ {l : List α}, l.map f = l → ∀ x ∈ l, f x = x := by
  intro l
  induction l with
  | nil => intro _ x hx; cases hx
  | cons a as ih =>
    intro h x hx
    rw [List.map_cons] at h
    injection h with h1 h2
    rcases List.mem_cons.mp hx with rfl | hx2
    · exact h1
    · exact ih h2 x hx2

/-- A path fixed by `normalizePath` contains no backslash. -/
lemma no_backslash_of_normalizePath_fixed {s : String}
    (h : normalizePath s = s) : strHasChar s '\\' = false := by
  simp only [normalizePath] at h
  by_cases hb : strHasChar s '\\' = true
  · exfalso
    have hmem : ('\\' : Char) ∈ s.toList := by
      unfold strHasChar at hb
      exact contains_iff_mem.mp hb
    split at h
    · -- q = backslashToSlash s starts with "./" and drop 2 gives back s: impossible by length
      have hlen2 : (backslashToSlash s).toList.drop 2 = s.toList := congrArg String.toList h
      have hlen3 : (backslashToSlash s).toList.length - 2 = s.toList.length := by
        rw [← List.length_drop]
        exact congrArg List.length hlen2
      have hbl : (backslashToSlash s).toList.length = s.toList.length := by
        show (s.toList.map fun c => if c = '\\' then '/' else c).length = s.toList.length
        exact List.length_map _ _
      have hne : s.toList ≠ [] := List.ne_nil_of_mem hmem
      have hpos : 0 < s.toList.length := List.length_pos.mpr hne
      omega
    · -- backslashToSlash s = s yet a backslash is present
      have hmap := congrArg String.toList h
      simp only [backslashToSlash] at hmap
      have := map_eq_self_forall (f := fun c => if c = '\\' then '/' else c)
        (l := s.toList) hmap '\\' hmem
      simp at this
  · simpa using hb

/-- `getAffectedFiles`' focus lookup returns the unique record with the
given path, on maps with unique, normalization-fixed paths. -/
lemma focusEntry_eq : ∀ (files : List FileRecord),
    (files.map (·.path)).Nodup →
    (∀ f ∈ files, normalizePath f.path = f.path) →
    ∀ {X : FileRecord}, X ∈ files →
      files.find? (fun f => normalizePath f.path == normalizePath X.path
        || f.path == X.path) = some X := by
  intro files
  induction files with
  | nil => intro _ _ X hX; cases hX
  | cons g rest ih =>
    intro hnd hfix X hX
    rw [List.map_cons] at hnd
    have hndc := List.nodup_cons.mp hnd
    by_cases hg : g.path = X.path
    · have hgX : g = X := by
        rcases List.mem_cons.mp hX with rfl | hX2
        · rfl
        · exact absurd (hg ▸ List.mem_map_of_mem (·.path) hX2) hndc.1
      subst hgX
      rw [List.find?_cons_of_pos]
      simp
    · have hX2 : X ∈ rest := by
        rcases List.mem_cons.mp hX with rfl | hX2
        · exact absurd rfl hg
        · exact hX2
      rw [List.find?_cons_of_neg]
      · exact ih hndc.2 (fun f hf => hfix f (List.mem_cons_of_mem g hf)) hX2
      · rw [hfix g (List.mem_cons_self g rest),
          hfix X (List.mem_cons_of_mem g hX2)]
        simp [hg]

/-- **C2.**  For every built Project Map — one whose file paths are
unique and already forward-slash normalized without a leading `./`
(exactly what `buildProjectMap` stores) — and any two of its files `X`
and `Y`:  `Y.path` appears among `getAffectedFiles(map, X.path)`'s
`dependents` iff `X.path` appears among `getAffectedFiles(map,
Y.path)`'s `dependencies`; both memberships are witnessed by the same
resolved import of `Y`. -/
theorem affected_dependents_dependencies_symmetry (map : ProjectMap)
    (hnd : (map.files.map (·.path)).Nodup)
    (hfix : ∀ f ∈ map.files, normalizePath f.path = f.path)
    (X Y : FileRecord) (hX : X ∈ map.files) (hY : Y ∈ map.files) :
    Y.path ∈ (getAffectedFiles map X.path).dependents ↔
      X.path ∈ (getAffectedFiles map Y.path).dependencies := by
  have hkeysfix : ∀ k ∈ map.files.map (·.path), normalizePath k = k := by
    intro k hk
    obtain ⟨f, hf, rfl⟩ := List.mem_map.mp hk
    exact hfix f hf
  have hkeysclean : ∀ k ∈ map.files.map (·.path), strHasChar k '\\' = false :=
    fun k hk => no_backslash_of_normalizePath_fixed (hkeysfix k hk)
  have hAX : (getAffectedFiles map X.path).dependents
      = dependentsFold map.files (map.files.map (·.path))
          (normalizePath X.path) X.path := by
    simp only [getAffectedFiles]
    rw [focusEntry_eq map.files hnd hfix hX]
  have hAY : (getAffectedFiles map Y.path).dependencies
      = dependenciesFold Y.imports Y.path (map.files.map (·.path)) := by
    simp only [getAffectedFiles]
    rw [focusEntry_eq map.files hnd hfix hY]
  rw [hAX, hAY, hfix X hX, mem_dependentsFold, mem_dependenciesFold]
  constructor
  · rintro ⟨f, hf, hpath, imp, himp, r, hres, hcond⟩
    have hfY : f = Y := eq_of_path_eq hnd hf hY hpath.symm
    subst hfY
    have hrX : r = X.path := by
      rcases hcond with hcond | hcond
      · have hrk : r ∈ map.files.map (·.path) :=
          resolve_mem_of_clean_index _ _ _ hkeysclean hres
        rw [hkeysfix r hrk] at hcond
        exact hcond
      · exact hcond
    exact ⟨imp, himp, hrX ▸ hres⟩
  · rintro ⟨imp, himp, hres⟩
    exact ⟨Y, hY, rfl, imp, himp, X.path, hres, Or.inr rfl⟩

/-- Witness for C2 on a concrete two-file map: `a.js` imports `./b`, so
`a.js` is a dependent of `b.js` iff `b.js` is a dependency of `a.js`. -/
theorem affected_dependents_dependencies_symmetry_witness :
    ("a.js" : String) ∈ (getAffectedFiles scenarioFixed "b.js").dependents ↔
      ("b.js" : String) ∈ (getAffectedFiles scenarioFixed "a.js").dependencies :=
  affected_dependents_dependencies_symmetry scenarioFixed (by decide)
    (by decide) ⟨"b.js", [], [], ⟨[], none⟩⟩ ⟨"a.js", [], ["./b"], ⟨[], none⟩⟩
    (by decide) (by decide)

end Lens
